import Mathlib

/-!
Verification of the TubeGrab backend queue manager and download pipeline.

The definitions below are a shallow embedding of the Python sources:
  - backend/app/models/schemas.py   (data model)
  - backend/app/services/queue.py   (DownloadQueueManager)
  - backend/app/services/ytdlp.py   (YTDLPService)
  - backend/app/routes/queue.py     (queue endpoints)

Python floats carrying progress percentages are modelled as rationals,
strings as Lean strings (character lists where convenient), dicts keyed by
item id as insertion-ordered association lists (Python dicts preserve
insertion order), and fallible code as Except / explicit outcome types.
-/

namespace TubeGrab

/-! ## Data model (schemas.py) -/

/-- `DownloadStatus` enum from schemas.py. -/
inductive DownloadStatus where
  | queued
  | downloading
  | processing
  | completed
  | failed
  | cancelled
deriving DecidableEq, Repr

/-- `QueueItem` from schemas.py. Fields not touched by any queue-manager
mutation (video_id, url, thumbnail, format fields, created/completed
timestamps) are collapsed into the ones the claims are about. -/
structure QueueItem where
  id : String
  title : String := ""
  status : DownloadStatus := .queued
  progress : ℚ := 0
  speed : Option String := none
  eta : Option String := none
  error : Option String := none
  filePath : Option String := none
deriving DecidableEq, Repr

/-- A progress-update dict pushed through the thread-safe progress queue:
the dicts built in `progress_hook` / the conversion callbacks of ytdlp.py.
`data.get("progress", item.progress)` means an absent key keeps the old
value, hence `Option`. -/
structure ProgressUpdate where
  progress : Option ℚ := none
  speed : Option String := none
  eta : Option String := none
  status : Option String := none
deriving DecidableEq, Repr

/-- `QueueResponse` from schemas.py. -/
structure QueueResponse where
  items : List QueueItem
  active_downloads : Nat
  completed_count : Nat
  failed_count : Nat
deriving DecidableEq, Repr

/-! ## Manager state (queue.py, `DownloadQueueManager.__init__`)

`_queue` is a Python dict (insertion ordered) modelled as an association
list, `_order` the explicit insertion-order list, `_cancelled` the set of
flagged ids, `_progress_queue` the FIFO of pending progress updates.
The single worker coroutine is modelled by an explicit phase so that the
interleaving of the async-lock protected sections of `_process_queue` /
`_download_item` with the other coroutines is represented. -/

/-- Phase of the single background worker coroutine:
`idle` = scanning for work, `starting id` = after the cancelled-flag check
of `_download_item` but before the lock-protected status write,
`running id` = executing `ytdlp_service.download` for `id`. -/
inductive WorkerPhase where
  | idle
  | starting (id : String)
  | running (id : String)
deriving DecidableEq, Repr

structure ManagerState where
  queue : List (String × QueueItem)
  order : List String
  cancelled : List String
  pending : List (String × ProgressUpdate)
  worker : WorkerPhase
deriving DecidableEq, Repr

def initialState : ManagerState :=
  { queue := [], order := [], cancelled := [], pending := [], worker := .idle }

/-- Update every binding of `id` in the dict (there is at most one). -/
def setItem (q : List (String × QueueItem)) (id : String)
    (f : QueueItem → QueueItem) : List (String × QueueItem) :=
  q.map fun p => if p.1 = id then (p.1, f p.2) else p

/-- `del self._queue[item_id]`. -/
def delItem (q : List (String × QueueItem)) (id : String) :
    List (String × QueueItem) :=
  q.filter fun p => p.1 ≠ id

/-! ## Queue operations (queue.py) -/

/-- `add_to_queue`: append the fresh item to the dict and to `_order`. -/
def addToQueue (s : ManagerState) (item : QueueItem) : ManagerState :=
  { s with queue := s.queue ++ [(item.id, item)], order := s.order ++ [item.id] }

/-- `get_queue`: items listed in `_order` (skipping ids no longer in the
dict), and the three counters computed as Python's
`sum(1 for item in items if ...)` generator sums. -/
def getQueue (s : ManagerState) : QueueResponse :=
  let items := s.order.filterMap fun id => s.queue.lookup id
  { items := items
    active_downloads :=
      items.foldl (fun n item => if item.status = .downloading then n + 1 else n) 0
    completed_count :=
      items.foldl (fun n item => if item.status = .completed then n + 1 else n) 0
    failed_count :=
      items.foldl (fun n item => if item.status = .failed then n + 1 else n) 0 }

/-- `remove_from_queue`: if present, flag + mark cancelled when currently
downloading, then delete from dict and order; returns whether found. -/
def removeFromQueue (s : ManagerState) (id : String) : ManagerState × Bool :=
  match s.queue.lookup id with
  | some item =>
    let s1 :=
      if item.status = .downloading then
        { s with cancelled := s.cancelled.insert id
                 queue := setItem s.queue id fun it => { it with status := .cancelled } }
      else s
    ({ s1 with queue := delItem s1.queue id, order := s1.order.erase id }, true)
  | none => (s, false)

/-- `cancel_download`: only from queued/downloading; sets the flag and the
cancelled status. -/
def cancelDownload (s : ManagerState) (id : String) : ManagerState × Bool :=
  match s.queue.lookup id with
  | some item =>
    if item.status = .queued ∨ item.status = .downloading then
      ({ s with cancelled := s.cancelled.insert id
                queue := setItem s.queue id fun it => { it with status := .cancelled } },
       true)
    else (s, false)
  | none => (s, false)

/-- `retry_download`: only from failed/cancelled; back to queued, progress 0,
error cleared, flag discarded. -/
def retryDownload (s : ManagerState) (id : String) : ManagerState × Bool :=
  match s.queue.lookup id with
  | some item =>
    if item.status = .failed ∨ item.status = .cancelled then
      ({ s with queue := setItem s.queue id fun it =>
                  { it with status := .queued, progress := 0, error := none }
                cancelled := s.cancelled.erase id },
       true)
    else (s, false)
  | none => (s, false)

/-- `clear_completed`: collect the completed ids, then delete each from the
dict and the order list, counting one per removal. -/
def clearCompleted (s : ManagerState) : ManagerState × Nat :=
  let toRemove := (s.queue.filter fun p => p.2.status = .completed).map Prod.fst
  (toRemove.foldl
    (fun acc id => { acc with queue := delItem acc.queue id, order := acc.order.erase id })
    s,
   toRemove.length)

def isTerminal (st : DownloadStatus) : Bool :=
  st = .completed ∨ st = .failed ∨ st = .cancelled

/-- Modelled from the spec: `DownloadQueueManager.cancel_all` is invoked by
the `/queue/cancel-all` route (routes/queue.py) but the method itself is
absent from services/queue.py. Per the spec, `cancelAll() -> count`
cancels every item not already terminal (terminal being completed, failed,
cancelled) and returns the number of items cancelled; cancelling an item
sets its cancellation flag and its status, as `cancel_download` does. -/
def cancelAll (s : ManagerState) : ManagerState × Nat :=
  let ids := (s.queue.filter fun p => !isTerminal p.2.status).map Prod.fst
  ({ s with
      queue := s.queue.map fun p =>
        if isTerminal p.2.status then p else (p.1, { p.2 with status := .cancelled })
      cancelled := ids.foldl (fun c id => c.insert id) s.cancelled },
   ids.length)

/-! ## Progress application and download completion (queue.py) -/

/-- Body of `_apply_progress_update` acting on the found item:
progress defaults to the old value, speed/eta are overwritten by the dict
values (absent keys give None), and a `"processing"` status key switches
the item status. -/
def applyItemUpdate (item : QueueItem) (data : ProgressUpdate) : QueueItem :=
  let item1 := { item with
    progress := data.progress.getD item.progress
    speed := data.speed
    eta := data.eta }
  if data.status = some "processing" then { item1 with status := .processing } else item1

/-- `_apply_progress_update`: no-op when the id has left the queue. -/
def applyProgressUpdate (s : ManagerState) (id : String) (data : ProgressUpdate) :
    ManagerState :=
  if (s.queue.lookup id).isSome then
    { s with queue := setItem s.queue id fun item => applyItemUpdate item data }
  else s

/-- `"cancelled" in error_msg.lower()`. -/
def listIsInside (p l : List Char) : Bool :=
  l.tails.any fun t => p = t.take p.length

/-- ASCII case folding, the relevant fragment of Python's `str.lower`. -/
def pyLowerChar (c : Char) : Char :=
  if 'A' ≤ c ∧ c ≤ 'Z' then Char.ofNat (c.toNat + 32) else c

def containsCancelledWord (msg : String) : Bool :=
  listIsInside "cancelled".toList (msg.toList.map pyLowerChar)

/-- Success tail of `_download_item` (lines 301-311): unless the item was
removed or its cancellation flag is set, mark completed with progress 100
and record the file path; the worker then loops for the next item. -/
def finishDownloadSuccess (s : ManagerState) (id : String) (filePath : String) :
    ManagerState :=
  let isCancelled := id ∈ s.cancelled
  let s1 :=
    if (s.queue.lookup id).isSome ∧ ¬isCancelled then
      { s with queue := setItem s.queue id fun item =>
          { item with status := .completed, progress := 100, filePath := some filePath } }
    else s
  { s1 with worker := .idle }

/-- Except clause of `_download_item` (lines 313-327): an error message
containing "cancelled" (case-insensitively) marks the item cancelled,
anything else marks it failed and stores the message; either way the
exception is swallowed and the worker loop continues. -/
def finishDownloadError (s : ManagerState) (id : String) (msg : String) :
    ManagerState :=
  let s1 :=
    if containsCancelledWord msg then
      if (s.queue.lookup id).isSome then
        { s with queue := setItem s.queue id fun item => { item with status := .cancelled } }
      else s
    else
      if (s.queue.lookup id).isSome then
        { s with queue := setItem s.queue id fun item =>
            { item with status := .failed, error := some msg } }
      else s
  { s1 with worker := .idle }

/-- The scan of `_process_queue`: first id in `_order` that is still in the
dict and has status queued. -/
def firstQueued (s : ManagerState) : Option String :=
  s.order.find? fun id =>
    match s.queue.lookup id with
    | some item => item.status = .queued
    | none => false

/-! ## Filename sanitization (ytdlp.py, `_sanitize_filename`) -/

def invalidFilenameChars : List Char := ['<', '>', ':', '"', '/', '\\', '|', '?', '*']

/-- The loop of `name.replace(char, '')` over every invalid character. -/
def removeInvalidChars (s : List Char) : List Char :=
  s.filter fun c => !invalidFilenameChars.contains c

/-- `name.strip(' .')`: drop leading and trailing characters from the set. -/
def stripEdgeChars (cs : List Char) (s : List Char) : List Char :=
  ((s.dropWhile fun c => cs.contains c).reverse.dropWhile fun c => cs.contains c).reverse

/-- The ASCII characters matched by Python's regex `\s` on str. -/
def isPySpace (c : Char) : Bool :=
  c = ' ' ∨ c = '\t' ∨ c = '\n' ∨ c = '\r' ∨ c = '\x0b' ∨ c = '\x0c'

/-- `re.sub(r'\s+', ' ', name)`: every maximal whitespace run becomes one
space. The boolean tracks whether the previous character belonged to a run
already emitted. -/
def collapseWsAux : Bool → List Char → List Char
  | _, [] => []
  | prevWs, c :: rest =>
    if isPySpace c then
      if prevWs then collapseWsAux true rest
      else ' ' :: collapseWsAux true rest
    else c :: collapseWsAux false rest

def collapseWs (s : List Char) : List Char := collapseWsAux false s

/-- `_sanitize_filename`: remove invalid characters, strip edge spaces and
dots, collapse whitespace runs. -/
def sanitizeFilename (s : List Char) : List Char :=
  collapseWs (stripEdgeChars [' ', '.'] (removeInvalidChars s))

/-! ## Track numbering (ytdlp.py, `_get_track_number`) -/

def audioExtensions : List String := [".mp3", ".m4a", ".flac", ".ogg", ".wav"]

def listEndsWith (l suf : List Char) : Bool :=
  suf = l.drop (l.length - suf.length)

def isHiddenName (l : List Char) : Bool :=
  match l with
  | '.' :: _ => true
  | _ => false

/-- `album_dir.glob(f"*{ext}")`: the name ends with the extension and is not
a hidden file (pathlib's `*` does not match a leading dot). For such a name
`Path(file).stem` is the name with the extension removed. -/
def globMatchesExt (n : String) (ext : String) : Bool :=
  listEndsWith n.toList ext.toList && !isHiddenName n.toList

def stemBeforeExt (n : String) (ext : String) : List Char :=
  n.toList.take (n.toList.length - ext.toList.length)

/-- `re.match(r"^(\d{2,3})\s*-\s*", file.stem)` followed by `int(...)`:
the leading digit run must have length exactly two or three (a longer run
leaves a digit right after the group, which can match neither `\s*` nor
`-`), then optional whitespace, then the dash. -/
def parseLeadingTrackNum (stem : List Char) : Option Nat :=
  let ds := stem.takeWhile Char.isDigit
  let rest := stem.dropWhile Char.isDigit
  if ds.length = 2 ∨ ds.length = 3 then
    match rest.dropWhile isPySpace with
    | '-' :: _ => some (ds.foldl (fun n c => 10 * n + (c.toNat - '0'.toNat)) 0)
    | _ => none
  else none

/-- The per-extension collection loop of `_get_track_number` (lines
265-276), keeping each matched file's stem. -/
def collectAudioStems (files : List String) : List (List Char) :=
  audioExtensions.foldl
    (fun acc ext =>
      acc ++ (files.filter fun n => globMatchesExt n ext).map fun n => stemBeforeExt n ext)
    []

/-- Decimal digits of a natural number; the fuel argument only bounds the
recursion depth and `n + 1` is always enough. -/
def natDigitsGo : Nat → Nat → List Char
  | 0, _ => []
  | fuel + 1, n =>
    if n < 10 then [Char.ofNat ('0'.toNat + n)]
    else natDigitsGo fuel (n / 10) ++ [Char.ofNat ('0'.toNat + n % 10)]

def natRepr (n : Nat) : String := ⟨natDigitsGo (n + 1) n⟩

/-- Python's `f"{next_track:02d}"`. -/
def formatTrack (n : Nat) : String :=
  if n < 10 then "0" ++ natRepr n else natRepr n

/-- How the album directory presents itself to `_get_track_number`:
absent, raising on existence check / listing, or a readable name list. -/
inductive DirState where
  | missing
  | unreadable
  | readable (files : List String)

/-- `_get_track_number` (the codec argument of the source is unused). -/
def getTrackNumber (dir : DirState) : String :=
  match dir with
  | .missing => "01"
  | .unreadable => "01"
  | .readable files =>
    let trackNumbers := (collectAudioStems files).filterMap parseLeadingTrackNum
    let nextTrack :=
      if trackNumbers ≠ [] then trackNumbers.foldl max 0 + 1 else 1
    formatTrack nextTrack

/-! ## NFS retry wrapper (ytdlp.py, `_retry_nfs_operation`) -/

/-- What one attempt of the wrapped operation does: succeed, raise a
stale-file-handle error (OSError errno 116, or any exception whose text
mentions a stale handle - both source branches behave identically), or
raise any other error. -/
inductive NfsOutcome (α : Type) where
  | ok (v : α)
  | staleError (msg : String)
  | otherError (msg : String)
deriving DecidableEq, Repr

/-- Result of `_retry_nfs_operation`: the operation's value, a re-raised
exception, or the implicit `return None` when the loop falls through. -/
inductive NfsResult (α : Type) where
  | ok (v : α)
  | raised (msg : String)
  | noneResult
deriving DecidableEq, Repr

/-- The `for attempt in range(max_retries)` loop. `hasPath` is whether a
`path` argument was supplied; only then is `_refresh_nfs_mount` attempted,
which the second component counts. -/
def retryNfsLoop (op : Nat → NfsOutcome α) (maxRetries : Nat) (hasPath : Bool) :
    List Nat → Nat → NfsResult α × Nat
  | [], refreshes => (.noneResult, refreshes)
  | attempt :: rest, refreshes =>
    match op attempt with
    | .ok v => (.ok v, refreshes)
    | .staleError msg =>
      if attempt < maxRetries - 1 then
        retryNfsLoop op maxRetries hasPath rest (if hasPath then refreshes + 1 else refreshes)
      else (.raised msg, refreshes)
    | .otherError msg => (.raised msg, refreshes)

def retryNfsOperation (op : Nat → NfsOutcome α) (maxRetries : Nat) (hasPath : Bool) :
    NfsResult α × Nat :=
  retryNfsLoop op maxRetries hasPath (List.range maxRetries) 0

/-! ## Download pipeline progress updates and conversion tail (ytdlp.py) -/

/-- Dict built by `progress_hook` for a `downloading` event (lines 448-455);
the display strings for speed/eta are abstracted as empty strings. -/
def dlHookUpdate (p : ℚ) : ProgressUpdate :=
  { progress := some p, speed := some "", eta := some "", status := some "downloading" }

/-- Dict built by `progress_hook` for the `finished` event (lines 456-464). -/
def finishedHookUpdate : ProgressUpdate :=
  { progress := some 100, speed := none, eta := none, status := some "processing" }

/-- Dict sent when video conversion is about to start (lines 658-664). -/
def conversionStartUpdate : ProgressUpdate :=
  { progress := some 0, speed := none, eta := some "Starting conversion...",
    status := some "converting" }

/-- `conversion_progress_callback` (lines 667-678): conversion progress c is
remapped to `95 + c * 0.04`. -/
def conversionProgressUpdate (c : ℚ) : ProgressUpdate :=
  { progress := some (95 + c * (4 / 100)), speed := some "",
    eta := some "Converting...", status := some "converting" }

/-- Final dict sent after the conversion attempt, successful or not
(lines 695-700 and 709-714). -/
def finalConversionUpdate : ProgressUpdate :=
  { progress := some 100, speed := none, eta := none, status := none }

/-- The updates the pipeline emits for one video download with conversion
requested: hook updates for the fetch (external percentages `dps`), the
finished event, the conversion kickoff, remapped conversion percentages
`cps`, and the final 100. -/
def conversionEmittedUpdates (dps cps : List ℚ) : List ProgressUpdate :=
  (dps.map dlHookUpdate ++ [finishedHookUpdate]) ++
    (conversionStartUpdate :: (cps.map conversionProgressUpdate ++ [finalConversionUpdate]))

/-- The item's progress value after each successive applied update, starting
from a freshly enqueued item. -/
def itemProgressTrace (item : QueueItem) (updates : List ProgressUpdate) : List ℚ :=
  (updates.scanl applyItemUpdate item).map fun it => it.progress

def conversionProgressTrace (dps cps : List ℚ) : List ℚ :=
  itemProgressTrace { id := "item" } (conversionEmittedUpdates dps cps)

/-- The conversion tail of `download` (lines 684-717): the `_convert_video`
call is wrapped in try/except, so a failed conversion keeps the original
file and `download` still returns a path. -/
def convertVideoPhase (finalFile : String) (convertResult : Except String String) :
    String × ProgressUpdate :=
  match convertResult with
  | .ok converted => (converted, finalConversionUpdate)
  | .error _ => (finalFile, finalConversionUpdate)

/-- The guard on line 610 plus the conversion tail: conversion only runs for
video downloads with `convert_video` set, and `download` returns the final
path in every case. -/
def downloadFinalize (convertVideo isAudioOnly : Bool) (finalFile : String)
    (convertResult : Except String String) : String :=
  if convertVideo && !isAudioOnly then (convertVideoPhase finalFile convertResult).1
  else finalFile

/-! ## System transitions

One transition per atomic section: each `async with self._lock` block of
queue.py, the enqueue in `progress_callback`, and the phase changes of the
single worker coroutine. `enqueue` carries the uuid4 freshness guarantee
and the `QueueItem` schema defaults as side conditions. -/

inductive Step : ManagerState → ManagerState → Prop where
  | enqueue (s : ManagerState) (item : QueueItem)
      (hfresh : item.id ∉ s.queue.map Prod.fst)
      (hst : item.status = .queued) (hpr : item.progress = 0)
      (herr : item.error = none) :
      Step s (addToQueue s item)
  | remove (s : ManagerState) (id : String) :
      Step s (removeFromQueue s id).1
  | cancel (s : ManagerState) (id : String) :
      Step s (cancelDownload s id).1
  | retry (s : ManagerState) (id : String) :
      Step s (retryDownload s id).1
  | clear (s : ManagerState) :
      Step s (clearCompleted s).1
  | cancelAllItems (s : ManagerState) :
      Step s (cancelAll s).1
  | workerPick (s : ManagerState) (id : String)
      (hidle : s.worker = .idle) (hfirst : firstQueued s = some id)
      (hnc : id ∉ s.cancelled) :
      Step s { s with worker := .starting id }
  | workerSkip (s : ManagerState) (id : String)
      (hidle : s.worker = .idle) (hfirst : firstQueued s = some id)
      (hc : id ∈ s.cancelled) :
      Step s s
  | workerMark (s : ManagerState) (id : String)
      (h : s.worker = .starting id) :
      Step s { s with
        queue := setItem s.queue id fun it => { it with status := .downloading }
        worker := .running id }
  | emitProgress (s : ManagerState) (id : String) (u : ProgressUpdate)
      (h : s.worker = .running id) :
      Step s { s with pending := s.pending ++ [(id, u)] }
  | drain (s : ManagerState) (id : String) (u : ProgressUpdate)
      (rest : List (String × ProgressUpdate))
      (h : s.pending = (id, u) :: rest) :
      Step s (applyProgressUpdate { s with pending := rest } id u)
  | finishSuccess (s : ManagerState) (id : String) (filePath : String)
      (h : s.worker = .running id) :
      Step s (finishDownloadSuccess s id filePath)
  | finishError (s : ManagerState) (id : String) (msg : String)
      (h : s.worker = .running id) :
      Step s (finishDownloadError s id msg)

/-- States the system can reach from process start. -/
def Reachable (s : ManagerState) : Prop :=
  Relation.ReflTransGen Step initialState s

/-- Number of items currently in downloading or processing status, the
quantity the single-worker invariant claims is at most one. -/
def activeStatusCount (s : ManagerState) : Nat :=
  s.queue.countP fun p => p.2.status = .downloading ∨ p.2.status = .processing

/-- Number of downloading items whose cancellation flag is not set. -/
def downloadingUnflaggedCount (s : ManagerState) : Nat :=
  s.queue.countP fun p => p.2.status = .downloading ∧ p.1 ∉ s.cancelled

/-! ## Association-list lemmas -/

theorem lookup_setItem_self (q : List (String × QueueItem)) (id : String)
    (f : QueueItem → QueueItem) : (setItem q id f).lookup id = (q.lookup id).map f := by
  induction q with
  | nil => rfl
  | cons kv rest ih =>
    obtain ⟨k, v⟩ := kv
    simp only [setItem, List.map_cons]
    by_cases h : k = id
    · subst h
      rw [if_pos rfl]
      simp [List.lookup]
    · rw [if_neg h]
      have hbe : (id == k) = false := beq_eq_false_iff_ne.2 (Ne.symm h)
      simp only [List.lookup, hbe]
      exact ih

theorem lookup_setItem_ne (q : List (String × QueueItem)) (id k : String)
    (f : QueueItem → QueueItem) (h : k ≠ id) :
    (setItem q id f).lookup k = q.lookup k := by
  induction q with
  | nil => rfl
  | cons kv rest ih =>
    obtain ⟨k', v⟩ := kv
    simp only [setItem, List.map_cons]
    by_cases hk : k' = id
    · subst hk
      rw [if_pos rfl]
      have hbe : (k == k') = false := beq_eq_false_iff_ne.2 h
      simp only [List.lookup, hbe]
      exact ih
    · rw [if_neg hk]
      cases hbe : (k == k') with
      | true => simp only [List.lookup, hbe]
      | false =>
        simp only [List.lookup, hbe]
        exact ih

theorem setItem_map_fst (q : List (String × QueueItem)) (id : String)
    (f : QueueItem → QueueItem) : (setItem q id f).map Prod.fst = q.map Prod.fst := by
  induction q with
  | nil => rfl
  | cons kv rest ih =>
    obtain ⟨k, v⟩ := kv
    by_cases h : k = id <;> simp [setItem, h] at * <;> simpa [setItem] using ih

theorem mem_setItem (q : List (String × QueueItem)) (id : String)
    (f : QueueItem → QueueItem) (p : String × QueueItem) (hp : p ∈ setItem q id f) :
    (p ∈ q ∧ p.1 ≠ id) ∨ ∃ it, (id, it) ∈ q ∧ p = (id, f it) := by
  simp only [setItem, List.mem_map] at hp
  obtain ⟨x, hx, hxe⟩ := hp
  by_cases h : x.1 = id
  · right
    refine ⟨x.2, ?_, ?_⟩
    · have : x = (id, x.2) := by
        cases x
        simp_all
      simpa [← this] using hx
    · simp [← hxe, if_pos h, h]
  · left
    constructor
    · simpa [← hxe, if_neg h] using hx
    · simpa [← hxe, if_neg h] using h

theorem mem_delItem (q : List (String × QueueItem)) (id : String)
    (p : String × QueueItem) (hp : p ∈ delItem q id) : p ∈ q ∧ p.1 ≠ id := by
  simpa [delItem, List.mem_filter] using hp

theorem lookup_isSome_of_mem (q : List (String × QueueItem)) (k : String)
    (v : QueueItem) (h : (k, v) ∈ q) : (q.lookup k).isSome := by
  induction q with
  | nil => simp at h
  | cons kv rest ih =>
    obtain ⟨k', v'⟩ := kv
    rcases List.mem_cons.1 h with heq | hmem
    · cases heq
      simp [List.lookup]
    · cases hbe : (k == k') with
      | true => simp [List.lookup, hbe]
      | false =>
        simp only [List.lookup, hbe]
        exact ih hmem

/-! ## C7: NFS retry wrapper behaviour -/

/-- C7: with a path supplied, an operation raising a stale-file-handle error
on the first two attempts and succeeding on the third makes
`_retry_nfs_operation` (default `max_retries = 3`) return the successful
result after exactly two mount-refresh attempts, while an error that is not
a stale handle propagates immediately, with no retry and no refresh. -/
theorem retry_nfs_stale_twice_then_ok {α : Type} (op : Nat → NfsOutcome α)
    (v : α) (m1 m2 msg : String) :
    (op 0 = .staleError m1 → op 1 = .staleError m2 → op 2 = .ok v →
      retryNfsOperation op 3 true = (.ok v, 2)) ∧
    (op 0 = .otherError msg → retryNfsOperation op 3 true = (.raised msg, 0)) := by
  have hrange : List.range 3 = [0, 1, 2] := rfl
  constructor
  · intro h0 h1 h2
    simp [retryNfsOperation, hrange, retryNfsLoop, h0, h1, h2]
  · intro h0
    simp [retryNfsOperation, hrange, retryNfsLoop, h0]

theorem retry_nfs_stale_twice_then_ok_witness :
    retryNfsOperation (fun n => if n < 2 then NfsOutcome.staleError "stale" else .ok 42)
        3 true = (.ok 42, 2) ∧
    retryNfsOperation (fun _ => (NfsOutcome.otherError "boom" : NfsOutcome Nat))
        3 true = (.raised "boom", 0) :=
  ⟨(retry_nfs_stale_twice_then_ok
      (fun n => if n < 2 then NfsOutcome.staleError "stale" else .ok 42)
      42 "stale" "stale" "boom").1 rfl rfl rfl,
   (retry_nfs_stale_twice_then_ok
      (fun _ => (NfsOutcome.otherError "boom" : NfsOutcome Nat))
      0 "" "" "boom").2 rfl⟩

/-! ## C8: transcode failure is non-fatal -/

/-- C8: when video conversion was requested and the transcode attempt ends
in an error (fallback included, since any exception escaping
`_convert_video` lands in the same except clause), `download` neither
raises nor fails the item: it keeps the original un-transcoded file, emits
the final progress-100 update, and a subsequent successful finish still
marks the item completed with that path. -/
theorem transcode_failure_keeps_original (finalFile errMsg : String)
    (s : ManagerState) (id : String) (item : QueueItem) :
    downloadFinalize true false finalFile (.error errMsg) = finalFile ∧
    convertVideoPhase finalFile (.error errMsg) = (finalFile, finalConversionUpdate) ∧
    (s.queue.lookup id = some item → id ∉ s.cancelled →
      (finishDownloadSuccess s id
          (downloadFinalize true false finalFile (.error errMsg))).queue.lookup id
        = some { item with status := .completed, progress := 100,
                           filePath := some finalFile }) := by
  refine ⟨rfl, rfl, fun hlook hnc => ?_⟩
  simp only [finishDownloadSuccess]
  rw [if_pos ⟨by simp [hlook], hnc⟩]
  simp [lookup_setItem_self, hlook, downloadFinalize, convertVideoPhase]

theorem transcode_failure_keeps_original_witness :
    downloadFinalize true false "/d/v.mp4" (.error "hw encode failed") = "/d/v.mp4" ∧
    (finishDownloadSuccess
        { initialState with queue := [("A", { id := "A" })], order := ["A"],
                            worker := .running "A" }
        "A" (downloadFinalize true false "/d/v.mp4" (.error "hw encode failed"))).queue.lookup "A"
      = some { id := "A", status := .completed, progress := 100,
               filePath := some "/d/v.mp4" } := by
  have h := transcode_failure_keeps_original "/d/v.mp4" "hw encode failed"
    { initialState with queue := [("A", { id := "A" })], order := ["A"],
                        worker := .running "A" }
    "A" { id := "A" }
  exact ⟨h.1, h.2.2 (by decide) (by decide)⟩

/-! ## C10: active_downloads counts only downloading items -/

theorem foldl_status_count (l : List QueueItem) (st : DownloadStatus) (n : Nat) :
    l.foldl (fun n it => if it.status = st then n + 1 else n) n
      = n + l.countP (fun it => it.status = st) := by
  induction l generalizing n with
  | nil => simp
  | cons it rest ih =>
    by_cases h : it.status = st
    · simp [List.countP_cons, h, ih]
      omega
    · simp [List.countP_cons, h, ih]

/-- C10: `get_queue` computes `active_downloads` as the number of items
whose status is exactly downloading; items in processing are not counted,
so a queue whose items are all non-downloading (for instance, whose only
non-terminal item is processing) reports zero active downloads. -/
theorem active_downloads_counts_downloading (s : ManagerState) :
    (getQueue s).active_downloads
        = (getQueue s).items.countP (fun it => it.status = .downloading) ∧
    ((∀ it ∈ (getQueue s).items, it.status ≠ .downloading) →
      (getQueue s).active_downloads = 0) := by
  have hfold := foldl_status_count
    (s.order.filterMap fun id => s.queue.lookup id) .downloading 0
  constructor
  · simpa [getQueue] using hfold
  · intro hnone
    have : ((getQueue s).items.countP (fun it => it.status = .downloading)) = 0 := by
      rw [List.countP_eq_zero]
      intro it hit
      simpa using hnone it hit
    calc (getQueue s).active_downloads
        = (getQueue s).items.countP (fun it => it.status = .downloading) := by
          simpa [getQueue] using hfold
      _ = 0 := this

theorem active_downloads_counts_downloading_witness :
    (getQueue { initialState with
        queue := [("A", { id := "A", status := .processing })],
        order := ["A"] }).active_downloads = 0 :=
  (active_downloads_counts_downloading
    { initialState with
        queue := [("A", { id := "A", status := .processing })],
        order := ["A"] }).2 (by decide)

/-! ## C6: per-item error classification at the pipeline boundary -/

/-- C6: an error escaping `ytdlp_service.download` for an item still in the
queue is classified by `_download_item`: a message containing "cancelled"
(case-insensitively) marks the item cancelled and leaves its error field
untouched (null throughout a download run), any other message marks it
failed and stores the message; in both cases the exception is swallowed and
the worker goes back to scanning for the next queued item. -/
theorem download_error_classification (s : ManagerState) (id msg : String)
    (item : QueueItem) (hlook : s.queue.lookup id = some item)
    (herr : item.error = none) :
    (containsCancelledWord msg = true →
      (finishDownloadError s id msg).queue.lookup id
          = some { item with status := .cancelled } ∧
      ((finishDownloadError s id msg).queue.lookup id).map QueueItem.error
          = some none) ∧
    (containsCancelledWord msg = false →
      (finishDownloadError s id msg).queue.lookup id
          = some { item with status := .failed, error := some msg }) ∧
    (finishDownloadError s id msg).worker = .idle := by
  refine ⟨fun hc => ?_, fun hc => ?_, ?_⟩
  · have hl : (finishDownloadError s id msg).queue.lookup id
        = some { item with status := .cancelled } := by
      simp [finishDownloadError, hc, hlook, lookup_setItem_self]
    exact ⟨hl, by simp [hl, herr]⟩
  · simp [finishDownloadError, hc, hlook, lookup_setItem_self]
  · simp [finishDownloadError]

theorem download_error_classification_witness :
    (finishDownloadError
        { initialState with queue := [("A", { id := "A", status := .downloading })],
                            order := ["A"], worker := .running "A" }
        "A" "Download cancelled").queue.lookup "A"
      = some { id := "A", status := .cancelled } ∧
    (finishDownloadError
        { initialState with queue := [("B", { id := "B", status := .downloading })],
                            order := ["B"], worker := .running "B" }
        "B" "HTTP Error 403").queue.lookup "B"
      = some { id := "B", status := .failed, error := some "HTTP Error 403" } := by
  have h1 := download_error_classification
    { initialState with queue := [("A", { id := "A", status := .downloading })],
                        order := ["A"], worker := .running "A" }
    "A" "Download cancelled" { id := "A", status := .downloading } (by decide) rfl
  have h2 := download_error_classification
    { initialState with queue := [("B", { id := "B", status := .downloading })],
                        order := ["B"], worker := .running "B" }
    "B" "HTTP Error 403" { id := "B", status := .downloading } (by decide) rfl
  exact ⟨(h1.1 (by decide)).1, h2.2.1 (by decide)⟩

/-! ## C1: cancel-all endpoint -/

theorem mem_foldl_insert (l : List String) (c : List String) (x : String)
    (h : x ∈ l ∨ x ∈ c) : x ∈ l.foldl (fun c id => c.insert id) c := by
  induction l generalizing c with
  | nil => simpa using h.resolve_left (by simp)
  | cons a rest ih =>
    simp only [List.foldl_cons]
    apply ih
    rcases h with hl | hc
    · rcases List.mem_cons.1 hl with rfl | hr
      · right
        exact List.mem_insert_self x c
      · left
        exact hr
    · right
      exact List.mem_insert_of_mem hc

/-- C1: the modelled `cancelAll` cancels exactly the items whose status is
not terminal: it returns their number, leaves terminal items untouched,
turns every non-terminal item's status to cancelled while setting its
cancellation flag, and leaves no non-terminal item in the queue. -/
theorem cancel_all_cancels_every_nonterminal (s : ManagerState) :
    (cancelAll s).2 = s.queue.countP (fun p => !isTerminal p.2.status) ∧
    (∀ p ∈ s.queue, isTerminal p.2.status = true → p ∈ (cancelAll s).1.queue) ∧
    (∀ p ∈ s.queue, isTerminal p.2.status = false →
      (p.1, { p.2 with status := .cancelled }) ∈ (cancelAll s).1.queue ∧
      p.1 ∈ (cancelAll s).1.cancelled) ∧
    (∀ p ∈ (cancelAll s).1.queue, isTerminal p.2.status = true) := by
  refine ⟨?_, fun p hp hterm => ?_, fun p hp hterm => ?_, fun p hp => ?_⟩
  · simp [cancelAll, List.countP_eq_length_filter]
  · simp only [cancelAll, List.mem_map]
    exact ⟨p, hp, by simp [hterm]⟩
  · constructor
    · simp only [cancelAll, List.mem_map]
      exact ⟨p, hp, by simp [hterm]⟩
    · simp only [cancelAll]
      apply mem_foldl_insert
      left
      simp only [List.mem_map]
      exact ⟨p, List.mem_filter.2 ⟨hp, by simp [hterm]⟩, rfl⟩
  · simp only [cancelAll, List.mem_map] at hp
    obtain ⟨x, hx, hxe⟩ := hp
    by_cases hterm : isTerminal x.2.status
    · rw [← hxe, if_pos hterm]
      exact hterm
    · rw [← hxe, if_neg hterm]
      simp [isTerminal]

theorem cancel_all_cancels_every_nonterminal_witness :
    (cancelAll { initialState with
        queue := [("A", { id := "A", status := .queued }),
                  ("B", { id := "B", status := .completed }),
                  ("C", { id := "C", status := .downloading })],
        order := ["A", "B", "C"] }).2 = 2 ∧
    ("A", { id := "A", status := .cancelled }) ∈ (cancelAll { initialState with
        queue := [("A", { id := "A", status := .queued }),
                  ("B", { id := "B", status := .completed }),
                  ("C", { id := "C", status := .downloading })],
        order := ["A", "B", "C"] }).1.queue := by
  have h := cancel_all_cancels_every_nonterminal { initialState with
        queue := [("A", { id := "A", status := .queued }),
                  ("B", { id := "B", status := .completed }),
                  ("C", { id := "C", status := .downloading })],
        order := ["A", "B", "C"] }
  refine ⟨by rw [h.1]; decide, ?_⟩
  exact (h.2.2.1 ("A", { id := "A", status := .queued }) (by decide) (by decide)).1

/-! ## C9: track numbering -/

theorem le_foldl_max (l : List Nat) (a x : Nat) (h : x ∈ l ∨ x ≤ a) :
    x ≤ l.foldl max a := by
  induction l generalizing a with
  | nil => simpa using h.resolve_left (by simp)
  | cons b rest ih =>
    simp only [List.foldl_cons]
    apply ih
    rcases h with hl | ha
    · rcases List.mem_cons.1 hl with rfl | hr
      · right
        exact le_max_right a x
      · left
        exact hr
    · right
      exact le_trans ha (le_max_left a b)

theorem foldl_max_mem (l : List Nat) (a : Nat) :
    l.foldl max a = a ∨ l.foldl max a ∈ l := by
  induction l generalizing a with
  | nil => simp
  | cons b rest ih =>
    simp only [List.foldl_cons]
    rcases ih (max a b) with heq | hmem
    · rw [heq]
      rcases max_choice a b with h | h
    -- keep goal structure explicit
      · left
        exact h
      · right
        simp [h]
    · right
      exact List.mem_cons_of_mem b hmem

theorem natDigitsGo_length_pos (fuel n : Nat) (h : 1 ≤ fuel) :
    1 ≤ (natDigitsGo fuel n).length := by
  cases fuel with
  | zero => omega
  | succ k =>
    simp only [natDigitsGo]
    by_cases hn : n < 10
    · simp [hn]
    · simp [hn]

theorem formatTrack_length (n : Nat) : 2 ≤ (formatTrack n).length := by
  by_cases hn : n < 10
  · have h1 : 1 ≤ (natDigitsGo (n + 1) n).length := natDigitsGo_length_pos _ _ (by omega)
    simp only [formatTrack, if_pos hn, natRepr]
    simp only [String.length_append]
    have : ("0" : String).length = 1 := rfl
    simp only [this]
    have : (String.mk (natDigitsGo (n + 1) n)).length = (natDigitsGo (n + 1) n).length := rfl
    omega
  · simp only [formatTrack, if_neg hn, natRepr]
    have hsz : (String.mk (natDigitsGo (n + 1) n)).length = (natDigitsGo (n + 1) n).length := rfl
    rw [hsz]
    have hfuel : natDigitsGo (n + 1) n
        = natDigitsGo n (n / 10) ++ [Char.ofNat ('0'.toNat + n % 10)] := by
      simp [natDigitsGo, hn]
    rw [hfuel, List.length_append]
    have : 1 ≤ (natDigitsGo n (n / 10)).length := natDigitsGo_length_pos _ _ (by omega)
    simp
    omega

/-- C9: the next track number for an album directory is the maximum of the
track numbers parsed from prefixed audio files plus one, rendered with at
least two digits; the concrete directory of "01 - A.mp3" and "03 - B.mp3"
yields "04", and an empty, missing, or unreadable directory yields "01". -/
theorem track_numbering (files : List String) :
    getTrackNumber (.readable ["01 - A.mp3", "03 - B.mp3"]) = "04" ∧
    getTrackNumber (.readable []) = "01" ∧
    getTrackNumber .missing = "01" ∧
    getTrackNumber .unreadable = "01" ∧
    ((collectAudioStems files).filterMap parseLeadingTrackNum ≠ [] →
      ∃ m, m ∈ (collectAudioStems files).filterMap parseLeadingTrackNum ∧
        (∀ x ∈ (collectAudioStems files).filterMap parseLeadingTrackNum, x ≤ m) ∧
        getTrackNumber (.readable files) = formatTrack (m + 1)) ∧
    ((collectAudioStems files).filterMap parseLeadingTrackNum = [] →
      getTrackNumber (.readable files) = "01") ∧
    (∀ n : Nat, 2 ≤ (formatTrack n).length) := by
  refine ⟨by decide, by decide, by decide, by decide, fun hne => ?_, fun hnil => ?_,
    formatTrack_length⟩
  · set nums := (collectAudioStems files).filterMap parseLeadingTrackNum with hnums
    refine ⟨nums.foldl max 0, ?_, ?_, ?_⟩
    · rcases foldl_max_mem nums 0 with h0 | hmem
      · rw [h0]
        obtain ⟨y, hy⟩ := List.exists_mem_of_ne_nil nums hne
        have : y ≤ 0 := by
          have := le_foldl_max nums 0 y (Or.inl hy)
          omega
        have hy0 : y = 0 := by omega
        rw [← hy0]
        exact hy
      · exact hmem
    · intro x hx
      exact le_foldl_max nums 0 x (Or.inl hx)
    · simp only [getTrackNumber, ← hnums, if_pos hne]
  · simp only [getTrackNumber, hnil]
    decide

theorem track_numbering_witness :
    ∃ m, m ∈ (collectAudioStems ["01 - A.mp3", "03 - B.mp3"]).filterMap
        parseLeadingTrackNum ∧
      (∀ x ∈ (collectAudioStems ["01 - A.mp3", "03 - B.mp3"]).filterMap
          parseLeadingTrackNum, x ≤ m) ∧
      getTrackNumber (.readable ["01 - A.mp3", "03 - B.mp3"]) = formatTrack (m + 1) :=
  (track_numbering ["01 - A.mp3", "03 - B.mp3"]).2.2.2.2.1 (by decide)

/-! ## C3: filename sanitization -/

theorem mem_removeInvalidChars (s : List Char) (c : Char)
    (h : c ∈ removeInvalidChars s) :
    c ∈ s ∧ invalidFilenameChars.contains c = false := by
  have := List.mem_filter.1 h
  simpa using this

theorem removeInvalidChars_eq_self (l : List Char)
    (h : ∀ c ∈ l, invalidFilenameChars.contains c = false) :
    removeInvalidChars l = l := by
  apply List.filter_eq_self.2
  intro c hc
  have := h c hc
  simp only [Bool.not_eq_true']
  exact this

theorem dropWhile_head_false (p : Char → Bool) (l : List Char) (a : Char)
    (t : List Char) (h : l.dropWhile p = a :: t) : p a = false := by
  induction l with
  | nil => simp at h
  | cons c rest ih =>
    by_cases hc : p c
    · rw [List.dropWhile_cons, if_pos hc] at h
      exact ih h
    · rw [List.dropWhile_cons, if_neg hc] at h
      cases h
      simpa using hc

theorem mem_dropWhile (p : Char → Bool) (l : List Char) (c : Char)
    (h : c ∈ l.dropWhile p) : c ∈ l :=
  List.Sublist.mem h (List.dropWhile_sublist p)

theorem mem_stripEdgeChars (cs s : List Char) (c : Char)
    (h : c ∈ stripEdgeChars cs s) : c ∈ s := by
  simp only [stripEdgeChars, List.mem_reverse] at h
  have h1 := mem_dropWhile _ _ _ h
  rw [List.mem_reverse] at h1
  exact mem_dropWhile _ _ _ h1

theorem stripEdgeChars_head (cs s : List Char) (a : Char)
    (h : (stripEdgeChars cs s).head? = some a) : cs.contains a = false := by
  simp only [stripEdgeChars] at h
  rw [List.head?_reverse] at h
  set u := s.dropWhile fun c => cs.contains c with hu
  set v := u.reverse.dropWhile fun c => cs.contains c with hv
  have hvne : v ≠ [] := by
    intro hnil
    rw [hnil] at h
    simp at h
  have hsuf : v <:+ u.reverse := List.dropWhile_suffix _
  obtain ⟨pre, hpre⟩ := hsuf
  have happ : (pre ++ v).getLast? = v.getLast? :=
    List.getLast?_append_of_ne_nil pre hvne
  have : u.reverse.getLast? = some a := by
    rw [← hpre, happ]
    exact h
  rw [List.getLast?_reverse] at this
  cases hcases : u with
  | nil =>
    rw [hcases] at this
    simp at this
  | cons x t =>
    rw [hcases] at this
    simp only [List.head?_cons, Option.some.injEq] at this
    subst this
    exact dropWhile_head_false _ s _ _ hcases

theorem stripEdgeChars_getLast (cs s : List Char) (a : Char)
    (h : (stripEdgeChars cs s).getLast? = some a) : cs.contains a = false := by
  simp only [stripEdgeChars] at h
  rw [List.getLast?_reverse] at h
  cases hcases : (s.dropWhile fun c => cs.contains c).reverse.dropWhile
      fun c => cs.contains c with
  | nil =>
    rw [hcases] at h
    simp at h
  | cons x t =>
    rw [hcases] at h
    simp only [List.head?_cons, Option.some.injEq] at h
    subst h
    exact dropWhile_head_false _ _ _ _ hcases

theorem stripEdgeChars_eq_self (cs l : List Char)
    (hh : ∀ a, l.head? = some a → cs.contains a = false)
    (hl : ∀ a, l.getLast? = some a → cs.contains a = false) :
    stripEdgeChars cs l = l := by
  have h1 : l.dropWhile (fun c => cs.contains c) = l := by
    cases hc : l with
    | nil => simp
    | cons x t =>
      have hx : cs.contains x = false := hh x (by rw [hc]; rfl)
      rw [List.dropWhile_cons, if_neg (by simpa using hx)]
  have h2 : l.reverse.dropWhile (fun c => cs.contains c) = l.reverse := by
    cases hc : l.reverse with
    | nil => simp [hc]
    | cons x t =>
      have hxh : l.reverse.head? = some x := by rw [hc]; rfl
      rw [List.head?_reverse] at hxh
      have hx : cs.contains x = false := hl x hxh
      rw [List.dropWhile_cons, if_neg (by simpa using hx)]
  simp only [stripEdgeChars, h1, h2, List.reverse_reverse]

/-- The relation forbidding two adjacent whitespace characters. -/
def noSpaceRun (a b : Char) : Prop := ¬(isPySpace a = true ∧ isPySpace b = true)

theorem mem_collapseWsAux (l : List Char) (b : Bool) (c : Char)
    (h : c ∈ collapseWsAux b l) : c = ' ' ∨ c ∈ l := by
  induction l generalizing b with
  | nil => simp [collapseWsAux] at h
  | cons x rest ih =>
    by_cases hx : isPySpace x
    · cases b with
      | true =>
        simp only [collapseWsAux, if_pos hx] at h
        rcases ih true h with h' | h'
        · exact Or.inl h'
        · exact Or.inr (List.mem_cons_of_mem x h')
      | false =>
        simp only [collapseWsAux, if_pos hx] at h
        rcases List.mem_cons.1 h with rfl | hr
        · exact Or.inl rfl
        · rcases ih true hr with h' | h'
          · exact Or.inl h'
          · exact Or.inr (List.mem_cons_of_mem x h')
    · simp only [collapseWsAux, if_neg hx] at h
      rcases List.mem_cons.1 h with rfl | hr
      · exact Or.inr (List.mem_cons_self c rest)
      · rcases ih false hr with h' | h'
        · exact Or.inl h'
        · exact Or.inr (List.mem_cons_of_mem x h')

theorem collapseWsAux_true_head (l : List Char) (a : Char)
    (h : (collapseWsAux true l).head? = some a) : isPySpace a = false := by
  induction l with
  | nil => simp [collapseWsAux] at h
  | cons x rest ih =>
    by_cases hx : isPySpace x
    · simp only [collapseWsAux, if_pos hx] at h
      exact ih h
    · simp only [collapseWsAux, if_neg hx, List.head?_cons, Option.some.injEq] at h
      subst h
      simpa using hx

theorem collapseWsAux_chain (l : List Char) (b : Bool) :
    List.Chain' noSpaceRun (collapseWsAux b l) := by
  induction l generalizing b with
  | nil => simp [collapseWsAux]
  | cons x rest ih =>
    by_cases hx : isPySpace x
    · cases b with
      | true =>
        simp only [collapseWsAux, if_pos hx]
        exact ih true
      | false =>
        simp only [collapseWsAux, if_pos hx]
        apply List.chain'_cons'.2
        refine ⟨fun y hy => ?_, ih true⟩
        intro hcon
        have := collapseWsAux_true_head rest y hy
        rw [this] at hcon
        exact absurd hcon.2 (by simp)
    · simp only [collapseWsAux, if_neg hx]
      apply List.chain'_cons'.2
      refine ⟨fun y hy => ?_, ih false⟩
      intro hcon
      rw [hcon.1] at hx
      exact hx rfl

theorem getLast?_cons_ne_nil {α : Type} (c : α) (xs : List α) (hne : xs ≠ []) :
    (c :: xs).getLast? = xs.getLast? := by
  cases xs with
  | nil => exact absurd rfl hne
  | cons y t => rw [List.getLast?_cons_cons]

theorem eq_nil_of_getLast?_none {α : Type} :
    ∀ (l : List α), l.getLast? = none → l = []
  | [], _ => rfl
  | [x], h => by simp at h
  | x :: y :: t, h => by
    rw [List.getLast?_cons_cons] at h
    exact absurd (eq_nil_of_getLast?_none (y :: t) h) (by simp)

theorem mem_of_getLast?_some {α : Type} :
    ∀ (l : List α) (a : α), l.getLast? = some a → a ∈ l
  | [], _, h => by simp at h
  | [x], a, h => by
    simp only [List.getLast?_singleton, Option.some.injEq] at h
    simp [h]
  | x :: y :: t, a, h => by
    rw [List.getLast?_cons_cons] at h
    exact List.mem_cons_of_mem x (mem_of_getLast?_some (y :: t) a h)

theorem collapseWsAux_ne_nil :
    ∀ (l : List Char) (b : Bool) (a : Char),
      l.getLast? = some a → isPySpace a = false → collapseWsAux b l ≠ []
  | [], _, a, hlast, _ => by simp at hlast
  | [x], b, a, hlast, ha => by
    simp only [List.getLast?_singleton, Option.some.injEq] at hlast
    subst hlast
    cases b <;> simp [collapseWsAux, ha]
  | x :: y :: t, b, a, hlast, ha => by
    rw [List.getLast?_cons_cons] at hlast
    by_cases hx : isPySpace x
    · cases b with
      | true =>
        simp only [collapseWsAux, if_pos hx, if_pos rfl]
        exact collapseWsAux_ne_nil (y :: t) true a hlast ha
      | false => simp [collapseWsAux, if_pos hx]
    · simp [collapseWsAux, if_neg hx]

theorem collapseWsAux_getLast :
    ∀ (l : List Char) (b : Bool) (a : Char),
      l.getLast? = some a → isPySpace a = false →
      (collapseWsAux b l).getLast? = some a
  | [], _, a, hlast, _ => by simp at hlast
  | [x], b, a, hlast, ha => by
    simp only [List.getLast?_singleton, Option.some.injEq] at hlast
    subst hlast
    cases b <;> simp [collapseWsAux, ha]
  | x :: y :: t, b, a, hlast, ha => by
    rw [List.getLast?_cons_cons] at hlast
    have hneT : collapseWsAux true (y :: t) ≠ [] :=
      collapseWsAux_ne_nil (y :: t) true a hlast ha
    have hneF : collapseWsAux false (y :: t) ≠ [] :=
      collapseWsAux_ne_nil (y :: t) false a hlast ha
    by_cases hx : isPySpace x
    · cases b with
      | true =>
        have hstep : collapseWsAux true (x :: y :: t) = collapseWsAux true (y :: t) := by
          simp [collapseWsAux, hx]
        rw [hstep]
        exact collapseWsAux_getLast (y :: t) true a hlast ha
      | false =>
        have hstep : collapseWsAux false (x :: y :: t)
            = ' ' :: collapseWsAux true (y :: t) := by
          simp [collapseWsAux, hx]
        rw [hstep, getLast?_cons_ne_nil ' ' _ hneT]
        exact collapseWsAux_getLast (y :: t) true a hlast ha
    · have hstep : collapseWsAux b (x :: y :: t) = x :: collapseWsAux false (y :: t) := by
        cases b <;> simp [collapseWsAux, hx]
      rw [hstep, getLast?_cons_ne_nil x _ hneF]
      exact collapseWsAux_getLast (y :: t) false a hlast ha

theorem collapseWsAux_head (l : List Char) (b : Bool) (a : Char)
    (hhead : l.head? = some a) (ha : isPySpace a = false) :
    (collapseWsAux b l).head? = some a := by
  cases l with
  | nil => simp at hhead
  | cons x rest =>
    simp only [List.head?_cons, Option.some.injEq] at hhead
    subst hhead
    simp [collapseWsAux, ha]

theorem collapseWsAux_id :
    ∀ (l : List Char) (b : Bool),
      (∀ c ∈ l, isPySpace c = true → c = ' ') →
      List.Chain' noSpaceRun l →
      (b = true → ∀ a, l.head? = some a → isPySpace a = false) →
      collapseWsAux b l = l
  | [], b, _, _, _ => by cases b <;> rfl
  | x :: rest, b, hws, hch, hb => by
    by_cases hx : isPySpace x
    · have hx' : x = ' ' := hws x (List.mem_cons_self x rest) hx
      cases b with
      | true => exact absurd hx (by simp [hb rfl x rfl])
      | false =>
        simp only [collapseWsAux, if_pos hx, Bool.false_eq_true, if_false]
        rw [hx']
        congr 1
        apply collapseWsAux_id rest true
        · intro c hc hwsc
          exact hws c (List.mem_cons_of_mem x hc) hwsc
        · exact (List.chain'_cons'.1 hch).2
        · intro _ a hhead
          have hrel := (List.chain'_cons'.1 hch).1 a hhead
          by_contra hcon
          simp only [Bool.not_eq_false] at hcon
          exact hrel ⟨hx, hcon⟩
    · simp only [collapseWsAux, if_neg hx]
      congr 1
      apply collapseWsAux_id rest false
      · intro c hc hwsc
        exact hws c (List.mem_cons_of_mem x hc) hwsc
      · exact (List.chain'_cons'.1 hch).2
      · intro hcon
        simp at hcon

theorem sanitize_no_invalid (s : List Char) (c : Char)
    (h : c ∈ sanitizeFilename s) : invalidFilenameChars.contains c = false := by
  rcases mem_collapseWsAux _ _ _ h with rfl | hmem
  · decide
  · exact (mem_removeInvalidChars s c (mem_stripEdgeChars _ _ _ hmem)).2

/-- C3 counterexample: sanitization is not idempotent. On the input
consisting of a tab followed by a letter, `strip(' .')` leaves the tab in
place (it strips only spaces and dots) and the whitespace collapse then
turns it into a leading space, which a second pass strips away. -/
theorem sanitize_not_idempotent_counterexample :
    sanitizeFilename ['\t', 'a'] = [' ', 'a'] ∧
    sanitizeFilename (sanitizeFilename ['\t', 'a']) = ['a'] ∧
    sanitizeFilename (sanitizeFilename ['\t', 'a']) ≠ sanitizeFilename ['\t', 'a'] := by
  refine ⟨by decide, by decide, by decide⟩

/-- C3 amended: the sanitized result never contains any of the invalid
characters, and sanitization is idempotent on every input whose whitespace
characters are all plain spaces (the counterexample forces this restriction:
a non-space whitespace character surviving `strip(' .')` at an edge becomes
an edge space that only the second pass removes). -/
theorem sanitize_invalid_free_and_conditionally_idempotent :
    (∀ s : List Char, ∀ c ∈ sanitizeFilename s, c ∉ invalidFilenameChars) ∧
    (∀ s : List Char, (∀ c ∈ s, isPySpace c = true → c = ' ') →
      sanitizeFilename (sanitizeFilename s) = sanitizeFilename s) := by
  constructor
  · intro s c hc
    have := sanitize_no_invalid s c hc
    simpa using this
  · intro s h
    set d1 := removeInvalidChars s with hd1
    set d2 := stripEdgeChars [' ', '.'] d1 with hd2
    have hr : sanitizeFilename s = collapseWs d2 := rfl
    set r := collapseWs d2 with hrdef
    have hmem_r : ∀ c ∈ r, c = ' ' ∨ c ∈ s := by
      intro c hc
      rcases mem_collapseWsAux d2 false c hc with rfl | hmem
      · exact Or.inl rfl
      · exact Or.inr ((mem_removeInvalidChars s c (mem_stripEdgeChars _ _ _ hmem)).1)
    have hF1 : ∀ c ∈ r, invalidFilenameChars.contains c = false := by
      intro c hc
      exact sanitize_no_invalid s c (hr ▸ hc)
    have hF2 : ∀ c ∈ r, isPySpace c = true → c = ' ' := by
      intro c hc hws
      rcases hmem_r c hc with rfl | hmem
      · rfl
      · exact h c hmem hws
    have hF3 : List.Chain' noSpaceRun r := collapseWsAux_chain d2 false
    have hd2mem : ∀ c ∈ d2, c ∈ s := fun c hc =>
      (mem_removeInvalidChars s c (mem_stripEdgeChars _ _ _ hc)).1
    have hd2ws : ∀ c ∈ d2, isPySpace c = true → c = ' ' := fun c hc hws =>
      h c (hd2mem c hc) hws
    have hF4 : ∀ a, r.head? = some a →
        ([' ', '.'] : List Char).contains a = false ∧ isPySpace a = false := by
      intro a hhead
      cases hcases : d2 with
      | nil =>
        rw [hrdef, hcases] at hhead
        simp [collapseWs, collapseWsAux] at hhead
      | cons x t =>
        have hxh : d2.head? = some x := by rw [hcases]; rfl
        have hxcs : ([' ', '.'] : List Char).contains x = false :=
          stripEdgeChars_head [' ', '.'] d1 x (hd2 ▸ hxh)
        have hxws : isPySpace x = false := by
          by_cases hws : isPySpace x
          · have := hd2ws x (by rw [hcases]; exact List.mem_cons_self x t) hws
            subst this
            simp at hxcs
          · simpa using hws
        have : r.head? = some x := collapseWsAux_head d2 false x hxh hxws
        rw [this] at hhead
        cases hhead
        exact ⟨hxcs, hxws⟩
    have hF5 : ∀ a, r.getLast? = some a →
        ([' ', '.'] : List Char).contains a = false ∧ isPySpace a = false := by
      intro a hlast
      cases hcases : d2.getLast? with
      | none =>
        have hnil : d2 = [] := eq_nil_of_getLast?_none d2 hcases
        rw [hrdef, hnil] at hlast
        simp [collapseWs, collapseWsAux] at hlast
      | some z =>
        have hzcs : ([' ', '.'] : List Char).contains z = false :=
          stripEdgeChars_getLast [' ', '.'] d1 z (hd2 ▸ hcases)
        have hzmem : z ∈ d2 := mem_of_getLast?_some d2 z hcases
        have hzws : isPySpace z = false := by
          by_cases hws : isPySpace z
          · have := hd2ws z hzmem hws
            subst this
            simp at hzcs
          · simpa using hws
        have : r.getLast? = some z := collapseWsAux_getLast d2 false z hcases hzws
        rw [this] at hlast
        cases hlast
        exact ⟨hzcs, hzws⟩
    have step1 : removeInvalidChars r = r := removeInvalidChars_eq_self r hF1
    have step2 : stripEdgeChars [' ', '.'] r = r :=
      stripEdgeChars_eq_self [' ', '.'] r (fun a ha => (hF4 a ha).1)
        (fun a ha => (hF5 a ha).1)
    have step3 : collapseWs r = r := by
      apply collapseWsAux_id r false hF2 hF3
      intro hcon
      simp at hcon
    show sanitizeFilename (sanitizeFilename s) = sanitizeFilename s
    rw [hr]
    show collapseWs (stripEdgeChars [' ', '.'] (removeInvalidChars r)) = r
    rw [step1, step2, step3]

theorem sanitize_invalid_free_and_conditionally_idempotent_witness :
    sanitizeFilename (sanitizeFilename "  My< Song>:  final. ".toList)
      = sanitizeFilename "  My< Song>:  final. ".toList :=
  sanitize_invalid_free_and_conditionally_idempotent.2
    "  My< Song>:  final. ".toList (by decide)

/-! ## C5: iteration order is insertion order minus removals -/

/-- An externally triggered queue operation of the kind C5 quantifies over:
an enqueue request or a removal. -/
inductive QueueOp where
  | enqueueItem (item : QueueItem)
  | removeItem (id : String)

def applyQueueOp (s : ManagerState) : QueueOp → ManagerState
  | .enqueueItem item => addToQueue s item
  | .removeItem id => (removeFromQueue s id).1

def runQueueOps : ManagerState → List QueueOp → ManagerState
  | s, [] => s
  | s, op :: rest => runQueueOps (applyQueueOp s op) rest

/-- The specification-level view: a plain list, appended to on enqueue and
filtered on removal. -/
def specQueueOps : List QueueItem → List QueueOp → List QueueItem
  | l, [] => l
  | l, .enqueueItem item :: rest => specQueueOps (l ++ [item]) rest
  | l, .removeItem id :: rest => specQueueOps (l.filter fun it => it.id ≠ id) rest

/-- uuid4 freshness: every enqueued id differs from all ids seen before. -/
def opsWellFormed : List String → List QueueOp → Prop
  | _, [] => True
  | used, .enqueueItem item :: rest =>
    item.id ∉ used ∧ opsWellFormed (item.id :: used) rest
  | used, .removeItem _ :: rest => opsWellFormed used rest

/-- Structural invariant tying `_order` to the dict. -/
def QueueWF (s : ManagerState) : Prop :=
  s.order = s.queue.map Prod.fst ∧ (s.queue.map Prod.fst).Nodup ∧
    ∀ p ∈ s.queue, p.2.id = p.1

theorem filterMap_lookup_keys (q : List (String × QueueItem))
    (h : (q.map Prod.fst).Nodup) :
    (q.map Prod.fst).filterMap (fun id => q.lookup id) = q.map Prod.snd := by
  induction q with
  | nil => rfl
  | cons kv rest ih =>
    obtain ⟨k, v⟩ := kv
    simp only [List.map_cons, List.filterMap_cons]
    have hk : List.lookup k ((k, v) :: rest) = some v := by simp [List.lookup]
    rw [hk]
    have hnd := h
    simp only [List.map_cons, List.nodup_cons] at hnd
    have hcongr : (rest.map Prod.fst).filterMap (fun id => List.lookup id ((k, v) :: rest))
        = (rest.map Prod.fst).filterMap (fun id => rest.lookup id) := by
      apply List.filterMap_congr
      intro id hid
      have hne : id ≠ k := by
        intro hc
        subst hc
        exact hnd.1 hid
      have hbe : (id == k) = false := beq_eq_false_iff_ne.2 hne
      simp [List.lookup, hbe]
    rw [hcongr, ih hnd.2]

theorem getQueue_items_of_wf (s : ManagerState) (h : QueueWF s) :
    (getQueue s).items = s.queue.map Prod.snd := by
  obtain ⟨ho, hnd, _⟩ := h
  simp only [getQueue]
  rw [ho]
  exact filterMap_lookup_keys s.queue hnd

theorem delItem_setItem (q : List (String × QueueItem)) (id : String)
    (f : QueueItem → QueueItem) : delItem (setItem q id f) id = delItem q id := by
  induction q with
  | nil => rfl
  | cons kv rest ih =>
    obtain ⟨k, v⟩ := kv
    by_cases hk : k = id
    · subst hk
      simp only [setItem, List.map_cons, if_pos rfl, delItem, List.filter_cons]
      have : (decide (k ≠ k)) = false := by simp
      rw [this]
      simpa [setItem, delItem] using ih
    · simp only [setItem, List.map_cons, if_neg hk, delItem, List.filter_cons]
      have : (decide (k ≠ id)) = true := by simp [hk]
      rw [this]
      simp only [List.cons.injEq, true_and]
      simpa [setItem, delItem] using ih

theorem delItem_map_fst (q : List (String × QueueItem)) (id : String) :
    (delItem q id).map Prod.fst = (q.map Prod.fst).filter (fun k => k ≠ id) := by
  induction q with
  | nil => rfl
  | cons kv rest ih =>
    obtain ⟨k, v⟩ := kv
    simp only [delItem, List.filter_cons, List.map_cons]
    by_cases hk : k = id
    · subst hk
      have : (decide (k ≠ k)) = false := by simp
      rw [this]
      simpa [delItem] using ih
    · have : (decide (k ≠ id)) = true := by simp [hk]
      rw [this]
      simp only [List.map_cons, List.cons.injEq, true_and]
      simpa [delItem] using ih

theorem delItem_map_snd (q : List (String × QueueItem)) (id : String)
    (hid : ∀ p ∈ q, p.2.id = p.1) :
    (delItem q id).map Prod.snd = (q.map Prod.snd).filter (fun it => it.id ≠ id) := by
  induction q with
  | nil => rfl
  | cons kv rest ih =>
    obtain ⟨k, v⟩ := kv
    have hv : v.id = k := hid (k, v) (List.mem_cons_self _ _)
    have hrest : ∀ p ∈ rest, p.2.id = p.1 := fun p hp =>
      hid p (List.mem_cons_of_mem _ hp)
    simp only [delItem, List.filter_cons, List.map_cons]
    by_cases hk : k = id
    · subst hk
      have h1 : (decide (k ≠ k)) = false := by simp
      have h2 : (decide (v.id ≠ k)) = false := by simp [hv]
      rw [h1, h2]
      simpa [delItem] using ih hrest
    · have h1 : (decide (k ≠ id)) = true := by simp [hk]
      have h2 : (decide (v.id ≠ id)) = true := by simp [hv, hk]
      rw [h1, h2]
      simp only [List.map_cons, List.cons.injEq, true_and]
      simpa [delItem] using ih hrest

theorem lookup_eq_none_not_mem (q : List (String × QueueItem)) (id : String)
    (h : q.lookup id = none) : ∀ p ∈ q, p.1 ≠ id := by
  induction q with
  | nil => simp
  | cons kv rest ih =>
    obtain ⟨k, v⟩ := kv
    intro p hp
    rcases List.mem_cons.1 hp with rfl | hr
    · intro hc
      subst hc
      simp [List.lookup] at h
    · cases hbe : (id == k) with
      | true => simp [List.lookup, hbe] at h
      | false =>
        simp only [List.lookup, hbe] at h
        exact ih h p hr

theorem addToQueue_step (s : ManagerState) (item : QueueItem) (h : QueueWF s)
    (hfresh : item.id ∉ s.queue.map Prod.fst) :
    QueueWF (addToQueue s item) ∧
    (addToQueue s item).queue.map Prod.snd = s.queue.map Prod.snd ++ [item] := by
  obtain ⟨ho, hnd, hid⟩ := h
  refine ⟨⟨?_, ?_, ?_⟩, ?_⟩
  · simp [addToQueue, ho]
  · simp only [addToQueue, List.map_append, List.map_cons, List.map_nil]
    exact List.Nodup.append hnd (List.nodup_singleton _)
      (by simpa [List.disjoint_singleton] using hfresh)
  · intro p hp
    simp only [addToQueue, List.mem_append, List.mem_singleton] at hp
    rcases hp with hp | rfl
    · exact hid p hp
    · rfl
  · simp [addToQueue]

theorem removeFromQueue_step (s : ManagerState) (id : String) (h : QueueWF s) :
    QueueWF (removeFromQueue s id).1 ∧
    (removeFromQueue s id).1.queue.map Prod.snd
      = (s.queue.map Prod.snd).filter (fun it => it.id ≠ id) ∧
    ∀ k ∈ (removeFromQueue s id).1.queue.map Prod.fst, k ∈ s.queue.map Prod.fst := by
  obtain ⟨ho, hnd, hid⟩ := h
  cases hl : s.queue.lookup id with
  | none =>
    have hno : ∀ p ∈ s.queue, p.1 ≠ id := lookup_eq_none_not_mem s.queue id hl
    have hfil : (s.queue.map Prod.snd).filter (fun it => it.id ≠ id)
        = s.queue.map Prod.snd := by
      apply List.filter_eq_self.2
      intro it hit
      obtain ⟨p, hp, rfl⟩ := List.mem_map.1 hit
      simp [hid p hp, hno p hp]
    simp only [removeFromQueue, hl]
    exact ⟨⟨ho, hnd, hid⟩, hfil.symm, fun k hk => hk⟩
  | some item =>
    have hq1 : ∀ (st : ManagerState), st.queue = setItem s.queue id
          (fun it => { it with status := .cancelled }) ∨ st.queue = s.queue →
        delItem st.queue id = delItem s.queue id := by
      intro st hst
      rcases hst with hst | hst
      · rw [hst, delItem_setItem]
      · rw [hst]
    have hdel_snd : (delItem s.queue id).map Prod.snd
        = (s.queue.map Prod.snd).filter (fun it => it.id ≠ id) :=
      delItem_map_snd s.queue id hid
    have hdel_fst : (delItem s.queue id).map Prod.fst
        = (s.queue.map Prod.fst).filter (fun k => k ≠ id) :=
      delItem_map_fst s.queue id
    have herase : s.order.erase id = (s.queue.map Prod.fst).filter (fun k => k ≠ id) := by
      rw [ho, List.Nodup.erase_eq_filter hnd id]
      apply List.filter_congr
      intro x _
      by_cases hx : x = id
      · subst hx
        simp
      · simp [hx]
    have hmemdel : ∀ p ∈ delItem s.queue id, p ∈ s.queue := fun p hp =>
      (mem_delItem s.queue id p hp).1
    simp only [removeFromQueue, hl]
    by_cases hdl : item.status = .downloading
    · rw [if_pos hdl]
      refine ⟨⟨?_, ?_, ?_⟩, ?_, ?_⟩
      · simp only
        rw [delItem_setItem, hdel_fst, herase]
      · simp only
        rw [delItem_setItem, hdel_fst]
        exact hnd.filter _
      · intro p hp
        simp only at hp
        rw [delItem_setItem] at hp
        exact hid p (hmemdel p hp)
      · simp only
        rw [delItem_setItem, hdel_snd]
      · intro k hk
        simp only at hk
        rw [delItem_setItem, hdel_fst] at hk
        exact (List.mem_filter.1 hk).1
    · rw [if_neg hdl]
      refine ⟨⟨?_, ?_, ?_⟩, ?_, ?_⟩
      · show s.order.erase id = _
        rw [hdel_fst, herase]
      · show ((delItem s.queue id).map Prod.fst).Nodup
        rw [hdel_fst]
        exact hnd.filter _
      · intro p hp
        exact hid p (hmemdel p hp)
      · show (delItem s.queue id).map Prod.snd = _
        rw [hdel_snd]
      · intro k hk
        have hk' : k ∈ (delItem s.queue id).map Prod.fst := hk
        rw [hdel_fst] at hk'
        exact (List.mem_filter.1 hk').1

theorem runQueueOps_refines :
    ∀ (ops : List QueueOp) (s : ManagerState) (used : List String),
      QueueWF s → (∀ k ∈ s.queue.map Prod.fst, k ∈ used) →
      opsWellFormed used ops →
      QueueWF (runQueueOps s ops) ∧
      (runQueueOps s ops).queue.map Prod.snd
        = specQueueOps (s.queue.map Prod.snd) ops
  | [], s, used, hwf, _, _ => ⟨hwf, rfl⟩
  | .enqueueItem item :: rest, s, used, hwf, hsub, hops => by
    obtain ⟨hfreshu, hrest⟩ := hops
    have hfresh : item.id ∉ s.queue.map Prod.fst := fun hc => hfreshu (hsub _ hc)
    have hstep := addToQueue_step s item hwf hfresh
    have hsub' : ∀ k ∈ (addToQueue s item).queue.map Prod.fst, k ∈ item.id :: used := by
      intro k hk
      simp only [addToQueue, List.map_append, List.map_cons, List.map_nil,
        List.mem_append] at hk
      rcases hk with hk | hk
      · exact List.mem_cons_of_mem _ (hsub k hk)
      · simp only [List.mem_cons, List.not_mem_nil, or_false] at hk
        simp [hk]
    have hrec := runQueueOps_refines rest (addToQueue s item) (item.id :: used)
      hstep.1 hsub' hrest
    refine ⟨hrec.1, ?_⟩
    show (runQueueOps (addToQueue s item) rest).queue.map Prod.snd = _
    rw [hrec.2, hstep.2]
    rfl
  | .removeItem id :: rest, s, used, hwf, hsub, hops => by
    have hstep := removeFromQueue_step s id hwf
    have hsub' : ∀ k ∈ (removeFromQueue s id).1.queue.map Prod.fst, k ∈ used :=
      fun k hk => hsub k (hstep.2.2 k hk)
    have hrec := runQueueOps_refines rest (removeFromQueue s id).1 used
      hstep.1 hsub' hops
    refine ⟨hrec.1, ?_⟩
    show (runQueueOps (removeFromQueue s id).1 rest).queue.map Prod.snd = _
    rw [hrec.2, hstep.2.1]
    rfl

/-- C5: over any well-formed sequence of enqueue and remove operations
(well-formed meaning enqueued ids are fresh, as uuid4 guarantees), listing
the queue via `get_queue` yields exactly the enqueued items in insertion
order with the removed ones absent. -/
theorem queue_iteration_is_insertion_order_minus_removed (ops : List QueueOp)
    (h : opsWellFormed [] ops) :
    (getQueue (runQueueOps initialState ops)).items = specQueueOps [] ops := by
  have h0 : QueueWF initialState :=
    ⟨rfl, List.nodup_nil, by intro p hp; simp [initialState] at hp⟩
  have hmain := runQueueOps_refines ops initialState [] h0
    (by intro k hk; simp [initialState] at hk) h
  rw [getQueue_items_of_wf _ hmain.1, hmain.2]
  rfl

theorem queue_iteration_is_insertion_order_minus_removed_witness :
    (getQueue (runQueueOps initialState
        [.enqueueItem { id := "A" }, .enqueueItem { id := "B" },
         .removeItem "A", .enqueueItem { id := "C" }])).items
      = [{ id := "B" }, { id := "C" }] := by
  rw [queue_iteration_is_insertion_order_minus_removed
    [.enqueueItem { id := "A" }, .enqueueItem { id := "B" },
     .removeItem "A", .enqueueItem { id := "C" }]
    (by refine ⟨by decide, by decide, ?_⟩
        simp only [opsWellFormed]
        exact ⟨by decide, trivial⟩)]
  decide

/-! ## C2: progress monotonicity -/

theorem applyItemUpdate_progress (item : QueueItem) (u : ProgressUpdate) :
    (applyItemUpdate item u).progress = u.progress.getD item.progress := by
  simp only [applyItemUpdate]
  by_cases h : u.status = some "processing" <;> simp [h]

theorem itemProgressTrace_explicit :
    ∀ (us : List ProgressUpdate) (item : QueueItem),
      (∀ u ∈ us, u.progress.isSome) →
      itemProgressTrace item us
        = item.progress :: us.map (fun u => u.progress.getD 0)
  | [], item, _ => rfl
  | u :: rest, item, h => by
    have hu : u.progress.isSome := h u (List.mem_cons_self _ _)
    obtain ⟨p, hp⟩ := Option.isSome_iff_exists.1 hu
    have hrec := itemProgressTrace_explicit rest (applyItemUpdate item u)
      (fun v hv => h v (List.mem_cons_of_mem _ hv))
    simp only [itemProgressTrace, List.scanl_cons, List.map_cons, List.map_append,
      List.map_nil, List.singleton_append] at hrec ⊢
    rw [hrec]
    simp [applyItemUpdate_progress, hp]

theorem conversion_updates_have_progress (dps cps : List ℚ) :
    ∀ u ∈ conversionEmittedUpdates dps cps, u.progress.isSome := by
  intro u hu
  simp only [conversionEmittedUpdates, List.mem_append, List.mem_cons,
    List.mem_map, List.not_mem_nil, or_false] at hu
  rcases hu with (⟨p, hp1, rfl⟩ | rfl) | rfl | ⟨c, hc1, rfl⟩ | rfl <;> rfl

theorem chain'_le_zero_cons_append (l : List ℚ) (hch : List.Chain' (· ≤ ·) l)
    (hb : ∀ p ∈ l, 0 ≤ p ∧ p ≤ 100) :
    List.Chain' (· ≤ ·) (0 :: l ++ [100]) := by
  have : (0 :: l ++ [100] : List ℚ) = (0 :: l) ++ [100] := rfl
  rw [this, List.chain'_append]
  refine ⟨?_, List.chain'_singleton _, ?_⟩
  · apply List.chain'_cons'.2
    refine ⟨fun y hy => ?_, hch⟩
    have : y ∈ l := by
      cases l with
      | nil => simp at hy
      | cons a t =>
        simp only [List.head?_cons, Option.mem_def, Option.some.injEq] at hy
        subst hy
        exact List.mem_cons_self _ _
    exact (hb y this).1
  · intro x hx y hy
    simp only [List.head?_cons, Option.mem_def, Option.some.injEq] at hy
    subst hy
    have hx' := mem_of_getLast?_some (0 :: l) x hx
    rcases List.mem_cons.1 hx' with rfl | hm
    · norm_num
    · exact (hb x hm).2

theorem conversion_trace_eq (dps cps : List ℚ) :
    conversionProgressTrace dps cps
      = (0 :: dps ++ [100]) ++
        (0 :: cps.map (fun c => 95 + c * (4 / 100)) ++ [100]) := by
  rw [conversionProgressTrace,
    itemProgressTrace_explicit (conversionEmittedUpdates dps cps) { id := "item" }
      (conversion_updates_have_progress dps cps)]
  have hmap1 : (dps.map dlHookUpdate).map
      (fun u : ProgressUpdate => u.progress.getD 0) = dps := by
    rw [List.map_map]
    apply List.map_id''
    intro p
    rfl
  have hmap2 : (cps.map conversionProgressUpdate).map
      (fun u : ProgressUpdate => u.progress.getD 0)
      = cps.map (fun c => 95 + c * (4 / 100)) := by
    rw [List.map_map]
    apply List.map_congr_left
    intro c _
    rfl
  simp only [conversionEmittedUpdates, List.map_append, List.map_cons, List.map_nil,
    hmap1, hmap2]
  simp [finishedHookUpdate, conversionStartUpdate, finalConversionUpdate]

/-- C2 counterexample: within a single queued-to-completed span with no
retry, the applied progress sequence of a video download with conversion
goes 0, 100, 0, 100 - the conversion kickoff update (ytdlp.py lines
658-664) resets the applied progress to 0 right after the fetch finished at
100, so successive progress values are not non-decreasing. -/
theorem progress_not_monotone_counterexample :
    conversionProgressTrace [] [] = [0, 100, 0, 100] ∧
    ¬ List.Chain' (· ≤ ·) (conversionProgressTrace [] []) := by
  constructor
  · decide
  · intro h
    rw [(by decide : conversionProgressTrace [] [] = [0, 100, 0, 100])] at h
    have := List.chain'_cons.1 (List.chain'_cons.1 h).2
    exact absurd this.1 (by norm_num)

/-- C2 amended: for a video download with conversion, given that the
external engine reports non-decreasing fetch percentages and the transcoder
non-decreasing conversion percentages (both within 0-100), the applied
progress sequence splits into two non-decreasing segments; the only
decrease is the single reset to 0 at the conversion kickoff between them.
Without the conversion phase the claim's original statement holds on the
first segment. -/
theorem progress_monotone_except_conversion_start (dps cps : List ℚ)
    (hdch : List.Chain' (· ≤ ·) dps) (hdb : ∀ p ∈ dps, 0 ≤ p ∧ p ≤ 100)
    (hcch : List.Chain' (· ≤ ·) cps) (hcb : ∀ c ∈ cps, 0 ≤ c ∧ c ≤ 100) :
    conversionProgressTrace dps cps
        = (0 :: dps ++ [100]) ++
          (0 :: cps.map (fun c => 95 + c * (4 / 100)) ++ [100]) ∧
    List.Chain' (· ≤ ·) (0 :: dps ++ [100]) ∧
    List.Chain' (· ≤ ·) (0 :: cps.map (fun c => 95 + c * (4 / 100)) ++ [100]) := by
  refine ⟨conversion_trace_eq dps cps, chain'_le_zero_cons_append dps hdch hdb, ?_⟩
  apply chain'_le_zero_cons_append
  · rw [List.chain'_map]
    apply List.Chain'.imp ?_ hcch
    intro a b hab
    have : a * (4 / 100) ≤ b * (4 / 100) := by
      apply mul_le_mul_of_nonneg_right hab
      norm_num
    linarith
  · intro p hp
    obtain ⟨c, hc, rfl⟩ := List.mem_map.1 hp
    have h1 := (hcb c hc).1
    have h2 := (hcb c hc).2
    constructor
    · nlinarith
    · nlinarith

theorem progress_monotone_except_conversion_start_witness :
    conversionProgressTrace [10, 50] [25, 75]
        = ((0 :: [10, 50] ++ [100] : List ℚ)) ++
          (0 :: [(96 : ℚ), 98] ++ [100]) ∧
    List.Chain' (· ≤ ·) ((0 :: [10, 50] ++ [100] : List ℚ)) ∧
    List.Chain' (· ≤ ·) (0 :: [(96 : ℚ), 98] ++ [100]) := by
  have h := progress_monotone_except_conversion_start [10, 50] [25, 75]
    (by simp [List.chain'_cons]; norm_num)
    (by intro p hp
        simp only [List.mem_cons, List.not_mem_nil, or_false] at hp
        rcases hp with rfl | rfl <;> norm_num)
    (by simp [List.chain'_cons]; norm_num)
    (by intro c hc
        simp only [List.mem_cons, List.not_mem_nil, or_false] at hc
        rcases hc with rfl | rfl <;> norm_num)
  have hmap : ([25, 75] : List ℚ).map (fun c => 95 + c * (4 / 100))
      = [(96 : ℚ), 98] := by
    simp only [List.map_cons, List.map_nil]
    norm_num
  rw [hmap] at h
  exact h

/-! ## C4: single-worker status invariant -/

theorem applyItemUpdate_status (item : QueueItem) (u : ProgressUpdate) :
    (applyItemUpdate item u).status
      = if u.status = some "processing" then .processing else item.status := by
  simp only [applyItemUpdate]
  by_cases h : u.status = some "processing" <;> simp [h]

/-- The inductive invariant: queue keys are distinct, and an item can only
be downloading with its cancellation flag unset while the worker coroutine
is executing precisely that item. -/
def Inv (s : ManagerState) : Prop :=
  (s.queue.map Prod.fst).Nodup ∧
  ∀ p ∈ s.queue, p.2.status = .downloading → p.1 ∉ s.cancelled →
    s.worker = .running p.1

theorem inv_initial : Inv initialState :=
  ⟨List.nodup_nil, by intro p hp; simp [initialState] at hp⟩

theorem inv_delItem_queue (q : List (String × QueueItem)) (id : String)
    (hnd : (q.map Prod.fst).Nodup) : ((delItem q id).map Prod.fst).Nodup := by
  rw [delItem_map_fst]
  exact hnd.filter _

theorem clearFold_inv (ids : List String) :
    ∀ s : ManagerState, Inv s →
      Inv (ids.foldl
        (fun acc id =>
          { acc with queue := delItem acc.queue id, order := acc.order.erase id })
        s) := by
  induction ids with
  | nil => exact fun s h => h
  | cons id rest ih =>
    intro s h
    simp only [List.foldl_cons]
    apply ih
    obtain ⟨hnd, himpl⟩ := h
    refine ⟨inv_delItem_queue s.queue id hnd, ?_⟩
    intro p hp hdl hnc
    exact himpl p (mem_delItem _ _ _ hp).1 hdl hnc

theorem inv_step (s t : ManagerState) (hstep : Step s t) (hinv : Inv s) : Inv t := by
  obtain ⟨hnd, himpl⟩ := hinv
  cases hstep with
  | enqueue item hfresh hst hpr herr =>
    constructor
    · simp only [addToQueue, List.map_append, List.map_cons, List.map_nil]
      exact List.Nodup.append hnd (List.nodup_singleton _)
        (by simpa [List.disjoint_singleton] using hfresh)
    · intro p hp hdl hnc
      simp only [addToQueue, List.mem_append, List.mem_singleton] at hp
      rcases hp with hp | rfl
      · exact himpl p hp hdl hnc
      · rw [hst] at hdl
        exact absurd hdl (by simp)
  | remove id =>
    cases hl : s.queue.lookup id with
    | none =>
      simp only [removeFromQueue, hl]
      exact ⟨hnd, himpl⟩
    | some item =>
      simp only [removeFromQueue, hl]
      by_cases hdl : item.status = .downloading
      · rw [if_pos hdl]
        constructor
        · have hgoal : ((delItem (setItem s.queue id fun it =>
              { it with status := DownloadStatus.cancelled }) id).map Prod.fst).Nodup := by
            rw [delItem_setItem]
            exact inv_delItem_queue s.queue id hnd
          exact hgoal
        · intro p hp hpdl hnc
          have hp1 : p ∈ delItem (setItem s.queue id fun it =>
              { it with status := DownloadStatus.cancelled }) id := hp
          rw [delItem_setItem] at hp1
          obtain ⟨hmem, hne⟩ := mem_delItem _ _ _ hp1
          have hnc1 : p.1 ∉ s.cancelled := by
            intro hc
            exact hnc (List.mem_insert_of_mem hc)
          exact himpl p hmem hpdl hnc1
      · rw [if_neg hdl]
        constructor
        · exact inv_delItem_queue s.queue id hnd
        · intro p hp hpdl hnc
          obtain ⟨hmem, hne⟩ := mem_delItem _ _ _ hp
          exact himpl p hmem hpdl hnc
  | cancel id =>
    cases hl : s.queue.lookup id with
    | none =>
      simp only [cancelDownload, hl]
      exact ⟨hnd, himpl⟩
    | some item =>
      simp only [cancelDownload, hl]
      by_cases hst : item.status = .queued ∨ item.status = .downloading
      · rw [if_pos hst]
        constructor
        · have hgoal : ((setItem s.queue id fun it =>
              { it with status := DownloadStatus.cancelled }).map Prod.fst).Nodup := by
            rw [setItem_map_fst]
            exact hnd
          exact hgoal
        · intro p hp hpdl hnc
          have hp1 : p ∈ setItem s.queue id
              (fun it => { it with status := DownloadStatus.cancelled }) := hp
          rcases mem_setItem _ _ _ _ hp1 with ⟨hmem, hne⟩ | ⟨it, hit, rfl⟩
          · have hnc1 : p.1 ∉ s.cancelled := fun hc =>
              hnc (List.mem_insert_of_mem hc)
            exact himpl p hmem hpdl hnc1
          · exact absurd hpdl (by simp)
      · rw [if_neg hst]
        exact ⟨hnd, himpl⟩
  | retry id =>
    cases hl : s.queue.lookup id with
    | none =>
      simp only [retryDownload, hl]
      exact ⟨hnd, himpl⟩
    | some item =>
      simp only [retryDownload, hl]
      by_cases hst : item.status = .failed ∨ item.status = .cancelled
      · rw [if_pos hst]
        constructor
        · have hgoal : ((setItem s.queue id fun it =>
              { it with status := DownloadStatus.queued, progress := 0,
                        error := none }).map Prod.fst).Nodup := by
            rw [setItem_map_fst]
            exact hnd
          exact hgoal
        · intro p hp hpdl hnc
          have hp1 : p ∈ setItem s.queue id (fun it =>
              { it with status := DownloadStatus.queued, progress := 0,
                        error := none }) := hp
          rcases mem_setItem _ _ _ _ hp1 with ⟨hmem, hne⟩ | ⟨it, hit, rfl⟩
          · have hnc1 : p.1 ∉ s.cancelled := by
              intro hc
              exact hnc ((List.mem_erase_of_ne hne).2 hc)
            exact himpl p hmem hpdl hnc1
          · exact absurd hpdl (by simp)
      · rw [if_neg hst]
        exact ⟨hnd, himpl⟩
  | clear =>
    exact clearFold_inv _ s ⟨hnd, himpl⟩
  | cancelAllItems =>
    constructor
    · have hgoal : ((s.queue.map fun p =>
          if isTerminal p.2.status then p
          else (p.1, { p.2 with status := DownloadStatus.cancelled })).map
            Prod.fst).Nodup := by
        rw [List.map_map]
        have hcomp : (Prod.fst ∘ fun p : String × QueueItem =>
            if isTerminal p.2.status then p
            else (p.1, { p.2 with status := DownloadStatus.cancelled })) = Prod.fst := by
          funext p
          by_cases h : isTerminal p.2.status <;> simp [h]
        rw [hcomp]
        exact hnd
      exact hgoal
    · intro p hp hpdl hnc
      have hp1 : p ∈ s.queue.map fun p =>
          if isTerminal p.2.status then p
          else (p.1, { p.2 with status := DownloadStatus.cancelled }) := hp
      simp only [List.mem_map] at hp1
      obtain ⟨x, hx, hxe⟩ := hp1
      by_cases hterm : isTerminal x.2.status
      · rw [← hxe, if_pos hterm] at hpdl
        rw [hpdl] at hterm
        exact absurd hterm (by simp [isTerminal])
      · rw [← hxe, if_neg hterm] at hpdl
        exact absurd hpdl (by simp)
  | workerPick id hidle hfirst hnc =>
    constructor
    · exact hnd
    · intro p hp hpdl hpnc
      have := himpl p hp hpdl hpnc
      rw [hidle] at this
      exact absurd this (by simp)
  | workerSkip id hidle hfirst hc =>
    exact ⟨hnd, himpl⟩
  | workerMark id hworker =>
    constructor
    · have hgoal : ((setItem s.queue id fun it =>
          { it with status := DownloadStatus.downloading }).map Prod.fst).Nodup := by
        rw [setItem_map_fst]
        exact hnd
      exact hgoal
    · intro p hp hpdl hpnc
      have hp1 : p ∈ setItem s.queue id
          (fun it => { it with status := DownloadStatus.downloading }) := hp
      rcases mem_setItem _ _ _ _ hp1 with ⟨hmem, hne⟩ | ⟨it, hit, rfl⟩
      · have := himpl p hmem hpdl hpnc
        rw [hworker] at this
        exact absurd this (by simp)
      · rfl
  | emitProgress id u hworker =>
    exact ⟨hnd, himpl⟩
  | drain id u rest hpending =>
    by_cases hl : (s.queue.lookup id).isSome
    · have hl1 : (({ s with pending := rest } : ManagerState).queue.lookup id).isSome := hl
      simp only [applyProgressUpdate, if_pos hl1]
      constructor
      · have hgoal : ((setItem s.queue id fun item =>
            applyItemUpdate item u).map Prod.fst).Nodup := by
          rw [setItem_map_fst]
          exact hnd
        exact hgoal
      · intro p hp hpdl hpnc
        have hp1 : p ∈ setItem s.queue id (fun item => applyItemUpdate item u) := hp
        rcases mem_setItem _ _ _ _ hp1 with ⟨hmem, hne⟩ | ⟨it, hit, rfl⟩
        · exact himpl p hmem hpdl hpnc
        · have hstat := applyItemUpdate_status it u
          rw [hpdl] at hstat
          by_cases hproc : u.status = some "processing"
          · rw [if_pos hproc] at hstat
            exact absurd hstat.symm (by simp)
          · rw [if_neg hproc] at hstat
            exact himpl (id, it) hit hstat.symm hpnc
    · have hl1 : ¬(({ s with pending := rest } : ManagerState).queue.lookup id).isSome := hl
      simp only [applyProgressUpdate, if_neg hl1]
      exact ⟨hnd, himpl⟩
  | finishSuccess id filePath hworker =>
    by_cases hguard : (s.queue.lookup id).isSome ∧ ¬(id ∈ s.cancelled)
    · simp only [finishDownloadSuccess, if_pos hguard]
      constructor
      · have hgoal : ((setItem s.queue id fun item =>
            { item with status := DownloadStatus.completed, progress := 100,
                        filePath := some filePath }).map Prod.fst).Nodup := by
          rw [setItem_map_fst]
          exact hnd
        exact hgoal
      · intro p hp hpdl hpnc
        have hp1 : p ∈ setItem s.queue id (fun item =>
            { item with status := DownloadStatus.completed, progress := 100,
                        filePath := some filePath }) := hp
        rcases mem_setItem _ _ _ _ hp1 with ⟨hmem, hne⟩ | ⟨it, hit, rfl⟩
        · have hthis := himpl p hmem hpdl hpnc
          rw [hworker] at hthis
          simp only [WorkerPhase.running.injEq] at hthis
          exact absurd hthis.symm hne
        · exact absurd hpdl (by simp)
    · simp only [finishDownloadSuccess, if_neg hguard]
      constructor
      · exact hnd
      · intro p hp hpdl hpnc
        have hp1 : p ∈ s.queue := hp
        have hpnc1 : p.1 ∉ s.cancelled := hpnc
        have hthis := himpl p hp1 hpdl hpnc1
        rw [hworker] at hthis
        simp only [WorkerPhase.running.injEq] at hthis
        rcases not_and_or.1 hguard with hns | hcanc
        · obtain ⟨k, v⟩ := p
          simp only at hthis
          rw [hthis] at hns
          exact (hns (lookup_isSome_of_mem s.queue k v hp1)).elim
        · rw [not_not] at hcanc
          rw [← hthis] at hpnc1
          exact (hpnc1 hcanc).elim
  | finishError id msg hworker =>
    have hcase : ∀ (f : QueueItem → QueueItem),
        (∀ it, (f it).status ≠ .downloading) →
        Inv { s with queue := setItem s.queue id f, worker := .idle } := by
      intro f hf
      constructor
      · have hgoal : ((setItem s.queue id f).map Prod.fst).Nodup := by
          rw [setItem_map_fst]
          exact hnd
        exact hgoal
      · intro p hp hpdl hpnc
        have hp1 : p ∈ setItem s.queue id f := hp
        rcases mem_setItem _ _ _ _ hp1 with ⟨hmem, hne⟩ | ⟨it, hit, rfl⟩
        · have hthis := himpl p hmem hpdl hpnc
          rw [hworker] at hthis
          simp only [WorkerPhase.running.injEq] at hthis
          exact absurd hthis.symm hne
        · exact absurd hpdl (hf it)
    have hnone : ¬(s.queue.lookup id).isSome →
        Inv { s with worker := .idle } := by
      intro hns
      constructor
      · exact hnd
      · intro p hp hpdl hpnc
        have hp1 : p ∈ s.queue := hp
        have hpnc1 : p.1 ∉ s.cancelled := hpnc
        have hthis := himpl p hp1 hpdl hpnc1
        rw [hworker] at hthis
        simp only [WorkerPhase.running.injEq] at hthis
        obtain ⟨k, v⟩ := p
        simp only at hthis
        rw [hthis] at hns
        exact (hns (lookup_isSome_of_mem s.queue k v hp1)).elim
    by_cases hcc : containsCancelledWord msg
    · by_cases hls : (s.queue.lookup id).isSome
      · simp only [finishDownloadError, if_pos hcc, if_pos hls]
        exact hcase _ (by intro it; simp)
      · simp only [finishDownloadError, if_pos hcc, if_neg hls]
        exact hnone hls
    · by_cases hls : (s.queue.lookup id).isSome
      · simp only [finishDownloadError, if_neg hcc, if_pos hls]
        exact hcase _ (by intro it; simp)
      · simp only [finishDownloadError, if_neg hcc, if_neg hls]
        exact hnone hls


theorem inv_reachable (s : ManagerState) (h : Reachable s) : Inv s := by
  induction h with
  | refl => exact inv_initial
  | tail hsteps hstep ih => exact inv_step _ _ hstep ih

theorem countP_le_one_of_same_key (q : List (String × QueueItem)) (k : String)
    (pb : String × QueueItem → Bool) (hnd : (q.map Prod.fst).Nodup)
    (h : ∀ p ∈ q, pb p = true → p.1 = k) : q.countP pb ≤ 1 := by
  induction q with
  | nil => simp
  | cons p rest ih =>
    rw [List.countP_cons]
    have hndr : (rest.map Prod.fst).Nodup := by
      simp only [List.map_cons, List.nodup_cons] at hnd
      exact hnd.2
    by_cases hp : pb p = true
    · have hpk : p.1 = k := h p (List.mem_cons_self _ _) hp
      have hzero : rest.countP pb = 0 := by
        rw [List.countP_eq_zero]
        intro e he hpe
        have hek : e.1 = k := h e (List.mem_cons_of_mem _ he) hpe
        have hkeys : p.1 ∉ rest.map Prod.fst := by
          simp only [List.map_cons, List.nodup_cons] at hnd
          exact hnd.1
        apply hkeys
        rw [hpk, ← hek]
        exact List.mem_map_of_mem Prod.fst he
      rw [hzero]
      simp [hp]
    · have hp0 : pb p = false := by simpa using hp
      rw [hp0]
      simpa using ih hndr (fun e he hpe => h e (List.mem_cons_of_mem _ he) hpe)

/-- C4 amended: what the single worker actually guarantees in every
reachable state is that at most one item at a time is in downloading status
with its cancellation flag unset; the processing status is excluded (a
late-drained finish update can flip an already completed item back to
processing while the next item downloads), and a flagged item can be left
stuck in downloading by a cancellation racing the status write. -/
theorem at_most_one_unflagged_downloading (s : ManagerState) (h : Reachable s) :
    downloadingUnflaggedCount s ≤ 1 := by
  obtain ⟨hnd, himpl⟩ := inv_reachable s h
  rw [downloadingUnflaggedCount]
  cases hw : s.worker with
  | idle =>
    have hzero : s.queue.countP
        (fun p => p.2.status = .downloading ∧ p.1 ∉ s.cancelled) = 0 := by
      rw [List.countP_eq_zero]
      intro p hp hpb
      simp only [decide_eq_true_eq] at hpb
      have := himpl p hp hpb.1 hpb.2
      rw [hw] at this
      exact absurd this (by simp)
    rw [hzero]
    omega
  | starting id =>
    have hzero : s.queue.countP
        (fun p => p.2.status = .downloading ∧ p.1 ∉ s.cancelled) = 0 := by
      rw [List.countP_eq_zero]
      intro p hp hpb
      simp only [decide_eq_true_eq] at hpb
      have := himpl p hp hpb.1 hpb.2
      rw [hw] at this
      exact absurd this (by simp)
    rw [hzero]
    omega
  | running id =>
    apply countP_le_one_of_same_key s.queue id _ hnd
    intro p hp hpb
    simp only [decide_eq_true_eq] at hpb
    have := himpl p hp hpb.1 hpb.2
    rw [hw] at this
    simp only [WorkerPhase.running.injEq] at this
    exact this.symm

theorem at_most_one_unflagged_downloading_witness :
    downloadingUnflaggedCount initialState ≤ 1 :=
  at_most_one_unflagged_downloading initialState Relation.ReflTransGen.refl

/-- Item enqueued first in the C4 counterexample trace. -/
def cexItemA : QueueItem := { id := "A" }

/-- Item enqueued second in the C4 counterexample trace. -/
def cexItemB : QueueItem := { id := "B" }

def cexS1 : ManagerState := addToQueue initialState cexItemA

def cexS2 : ManagerState := { cexS1 with worker := .starting "A" }

def cexS3 : ManagerState :=
  { cexS2 with
      queue := setItem cexS2.queue "A" fun it => { it with status := .downloading }
      worker := .running "A" }

def cexS4 : ManagerState :=
  { cexS3 with pending := cexS3.pending ++ [("A", finishedHookUpdate)] }

def cexS5 : ManagerState := finishDownloadSuccess cexS4 "A" "/downloads/a.mp4"

def cexS6 : ManagerState := addToQueue cexS5 cexItemB

def cexS7 : ManagerState := { cexS6 with worker := .starting "B" }

def cexS8 : ManagerState :=
  { cexS7 with
      queue := setItem cexS7.queue "B" fun it => { it with status := .downloading }
      worker := .running "B" }

/-- The state reached after the finish-hook's "processing" update for item A,
still sitting in the progress queue when A was marked completed, is drained
while item B is already downloading. -/
def cexS9 : ManagerState :=
  applyProgressUpdate { cexS8 with pending := [] } "A" finishedHookUpdate

/-- C4 counterexample: a reachable state holds two items simultaneously in
downloading-or-processing status. The worker downloads A; the finish hook
enqueues a "processing" progress update; A is marked completed before the
drain task applies it; B starts downloading; the stale update then flips A
back to processing, so A (processing) and B (downloading) coexist. -/
theorem two_active_statuses_reachable_counterexample :
    Reachable cexS9 ∧ activeStatusCount cexS9 = 2 := by
  constructor
  · have hr1 : Reachable cexS1 :=
      Relation.ReflTransGen.single
        (Step.enqueue initialState cexItemA (by decide) rfl rfl rfl)
    have hr2 : Reachable cexS2 :=
      hr1.tail (Step.workerPick cexS1 "A" rfl (by decide) (by decide))
    have hr3 : Reachable cexS3 := hr2.tail (Step.workerMark cexS2 "A" rfl)
    have hr4 : Reachable cexS4 :=
      hr3.tail (Step.emitProgress cexS3 "A" finishedHookUpdate rfl)
    have hr5 : Reachable cexS5 :=
      hr4.tail (Step.finishSuccess cexS4 "A" "/downloads/a.mp4" rfl)
    have hr6 : Reachable cexS6 :=
      hr5.tail (Step.enqueue cexS5 cexItemB (by decide) rfl rfl rfl)
    have hr7 : Reachable cexS7 :=
      hr6.tail (Step.workerPick cexS6 "B" (by decide) (by decide) (by decide))
    have hr8 : Reachable cexS8 := hr7.tail (Step.workerMark cexS7 "B" rfl)
    exact hr8.tail (Step.drain cexS8 "A" finishedHookUpdate [] (by decide))
  · decide

end TubeGrab
